import Mathlib

/-!
Verification of the ftp-ext secure transfer pipeline (src/ftp-ext) against its
natural-language specification.

The Python sources are shallowly embedded:
* bytes are `List Nat` with every element `< 256` (predicate `IsBytes`);
* Python `str` values are `List Char` (Unicode scalar values, as in CPython);
* fallible operations return `Option`/`Except`;
* the AES-128 block permutation and the HMAC-SHA256 function used by the
  `cryptography.fernet` library are taken as explicit function parameters,
  constrained only by the properties the library guarantees (the block cipher
  decryption inverts encryption on 16-byte blocks, HMAC output is 32 bytes);
  everything else (base64, CBC chaining, PKCS7 padding, token framing, UTF-8,
  the metadata serialization) is modelled concretely.
-/

namespace FtpExt

/-- A Python `bytes` value: every element is an actual byte. -/
def IsBytes (l : List Nat) : Prop := ∀ b ∈ l, b < 256

instance : DecidablePred IsBytes := fun l =>
  inferInstanceAs (Decidable (∀ b ∈ l, b < 256))

/-! ## Base64 (urlsafe), as used by `base64.urlsafe_b64encode/urlsafe_b64decode`

`urlsafe_b64decode` translates `-`/`_` to `+`/`/` and then calls
`binascii.a2b_base64` in non-strict mode, whose semantics (CPython
`Modules/binascii.c`) are: characters outside the alphabet are discarded; a
padding character at quad position 0 or 1 is skipped; padding at quad position
2 or 3 terminates decoding once `quad_pos + pads >= 4`, with any unused low
bits of the current group dropped unchecked and the rest of the input ignored;
at end of input a nonzero quad position is an error. -/

/-- Value of one base64 character after the urlsafe translation step
(`A`-`Z`, `a`-`z`, `0`-`9`, and both `-`/`+` for 62, `_`/`/` for 63). -/
def b64val (c : Nat) : Option Nat :=
  if 65 ≤ c ∧ c ≤ 90 then some (c - 65)
  else if 97 ≤ c ∧ c ≤ 122 then some (c - 97 + 26)
  else if 48 ≤ c ∧ c ≤ 57 then some (c - 48 + 52)
  else if c = 45 ∨ c = 43 then some 62
  else if c = 95 ∨ c = 47 then some 63
  else none

/-- The urlsafe base64 character for a 6-bit value (`-` for 62, `_` for 63). -/
def b64chr (v : Nat) : Nat :=
  if v < 26 then v + 65
  else if v < 52 then v - 26 + 97
  else if v < 62 then v - 52 + 48
  else if v = 62 then 45
  else 95

/-- `base64.urlsafe_b64encode`: bytes to ASCII codes, with `=` (61) padding. -/
def b64encode : List Nat → List Nat
  | b0 :: b1 :: b2 :: rest =>
      b64chr (b0 / 4) :: b64chr (b0 % 4 * 16 + b1 / 16) ::
      b64chr (b1 % 16 * 4 + b2 / 64) :: b64chr (b2 % 64) :: b64encode rest
  | [b0, b1] => [b64chr (b0 / 4), b64chr (b0 % 4 * 16 + b1 / 16), b64chr (b1 % 16 * 4), 61]
  | [b0] => [b64chr (b0 / 4), b64chr (b0 % 4 * 16), 61, 61]
  | [] => []

/-- One-to-one transcription of the `binascii.a2b_base64` loop (non-strict
mode): state is the pending bit accumulator, the quad position, the pending
padding count and the bytes emitted so far. -/
def a2b : List Nat → Nat → Nat → Nat → List Nat → Option (List Nat)
  | [], _, quadPos, _, out => if quadPos = 0 then some out else none
  | c :: rest, acc, quadPos, pads, out =>
    if c = 61 then
      if 2 ≤ quadPos ∧ 4 ≤ quadPos + pads + 1 then some out
      else a2b rest acc quadPos (if 2 ≤ quadPos then pads + 1 else pads) out
    else
      match b64val c with
      | none => a2b rest acc quadPos pads out
      | some v =>
        if quadPos = 0 then a2b rest v 1 0 out
        else if quadPos = 1 then a2b rest (v % 16) 2 0 (out ++ [acc * 4 + v / 16])
        else if quadPos = 2 then a2b rest (v % 4) 3 0 (out ++ [acc * 16 + v / 4])
        else a2b rest 0 0 0 (out ++ [acc * 64 + v])

/-- `base64.urlsafe_b64decode` (raises, i.e. `none`, exactly when
`binascii.a2b_base64` raises). -/
def b64decode (l : List Nat) : Option (List Nat) := a2b l 0 0 0 []

theorem b64val_b64chr : ∀ v : Fin 64, b64val (b64chr v.val) = some v.val ∧ b64chr v.val ≠ 61 := by
  decide

theorem b64chr_ne_61 {v : Nat} (h : v < 64) : b64chr v ≠ 61 :=
  (b64val_b64chr ⟨v, h⟩).2

theorem b64val_chr {v : Nat} (h : v < 64) : b64val (b64chr v) = some v :=
  (b64val_b64chr ⟨v, h⟩).1

theorem a2b_step0' {c v : Nat} (rest : List Nat) (p : Nat) (out : List Nat)
    (hc : c ≠ 61) (hv : b64val c = some v) :
    a2b (c :: rest) 0 0 p out = a2b rest v 1 0 out := by
  simp [a2b, hc, hv]

theorem a2b_step1' {c v : Nat} (rest : List Nat) (acc p : Nat) (out : List Nat)
    (hc : c ≠ 61) (hv : b64val c = some v) :
    a2b (c :: rest) acc 1 p out = a2b rest (v % 16) 2 0 (out ++ [acc * 4 + v / 16]) := by
  simp [a2b, hc, hv]

theorem a2b_step2' {c v : Nat} (rest : List Nat) (acc p : Nat) (out : List Nat)
    (hc : c ≠ 61) (hv : b64val c = some v) :
    a2b (c :: rest) acc 2 p out = a2b rest (v % 4) 3 0 (out ++ [acc * 16 + v / 4]) := by
  simp [a2b, hc, hv]

theorem a2b_step3' {c v : Nat} (rest : List Nat) (acc p : Nat) (out : List Nat)
    (hc : c ≠ 61) (hv : b64val c = some v) :
    a2b (c :: rest) acc 3 p out = a2b rest 0 0 0 (out ++ [acc * 64 + v]) := by
  simp [a2b, hc, hv]

theorem a2b_pad2_first (rest : List Nat) (acc : Nat) (out : List Nat) :
    a2b (61 :: rest) acc 2 0 out = a2b rest acc 2 1 out := by
  simp [a2b]

theorem a2b_pad2_second (rest : List Nat) (acc : Nat) (out : List Nat) :
    a2b (61 :: rest) acc 2 1 out = some out := by
  simp [a2b]

theorem a2b_pad3 (rest : List Nat) (acc p : Nat) (out : List Nat) :
    a2b (61 :: rest) acc 3 p out = some out := by
  simp [a2b]

/-- Decoding an encoding appends the original bytes to the output accumulator. -/
theorem a2b_b64encode (bs : List Nat) (hb : IsBytes bs) :
    ∀ out, a2b (b64encode bs) 0 0 0 out = some (out ++ bs) := by
  induction bs using b64encode.induct with
  | case1 b0 b1 b2 rest ih =>
    intro out
    have h0 : b0 < 256 := hb b0 (by simp)
    have h1 : b1 < 256 := hb b1 (by simp)
    have h2 : b2 < 256 := hb b2 (by simp)
    have hrest : IsBytes rest := fun b hbm => hb b (by simp [hbm])
    have v1 : b0 / 4 < 64 := by omega
    have v2 : b0 % 4 * 16 + b1 / 16 < 64 := by omega
    have v3 : b1 % 16 * 4 + b2 / 64 < 64 := by omega
    have v4 : b2 % 64 < 64 := by omega
    rw [b64encode]
    rw [a2b_step0' _ _ _ (b64chr_ne_61 v1) (b64val_chr v1)]
    rw [a2b_step1' _ _ _ _ (b64chr_ne_61 v2) (b64val_chr v2)]
    rw [a2b_step2' _ _ _ _ (b64chr_ne_61 v3) (b64val_chr v3)]
    rw [a2b_step3' _ _ _ _ (b64chr_ne_61 v4) (b64val_chr v4)]
    rw [ih hrest]
    have e1 : b0 / 4 * 4 + (b0 % 4 * 16 + b1 / 16) / 16 = b0 := by omega
    have e2 : (b0 % 4 * 16 + b1 / 16) % 16 * 16 + (b1 % 16 * 4 + b2 / 64) / 4 = b1 := by omega
    have e3 : (b1 % 16 * 4 + b2 / 64) % 4 * 64 + b2 % 64 = b2 := by omega
    rw [e1, e2, e3]
    simp
  | case2 b0 b1 =>
    intro out
    have h0 : b0 < 256 := hb b0 (by simp)
    have h1 : b1 < 256 := hb b1 (by simp)
    have v1 : b0 / 4 < 64 := by omega
    have v2 : b0 % 4 * 16 + b1 / 16 < 64 := by omega
    have v3 : b1 % 16 * 4 < 64 := by omega
    rw [b64encode]
    rw [a2b_step0' _ _ _ (b64chr_ne_61 v1) (b64val_chr v1)]
    rw [a2b_step1' _ _ _ _ (b64chr_ne_61 v2) (b64val_chr v2)]
    rw [a2b_step2' _ _ _ _ (b64chr_ne_61 v3) (b64val_chr v3)]
    rw [a2b_pad3]
    have e1 : b0 / 4 * 4 + (b0 % 4 * 16 + b1 / 16) / 16 = b0 := by omega
    have e2 : (b0 % 4 * 16 + b1 / 16) % 16 * 16 + b1 % 16 * 4 / 4 = b1 := by omega
    rw [e1, e2]
    simp
  | case3 b0 =>
    intro out
    have h0 : b0 < 256 := hb b0 (by simp)
    have v1 : b0 / 4 < 64 := by omega
    have v2 : b0 % 4 * 16 < 64 := by omega
    rw [b64encode]
    rw [a2b_step0' _ _ _ (b64chr_ne_61 v1) (b64val_chr v1)]
    rw [a2b_step1' _ _ _ _ (b64chr_ne_61 v2) (b64val_chr v2)]
    rw [a2b_pad2_first, a2b_pad2_second]
    have e1 : b0 / 4 * 4 + b0 % 4 * 16 / 16 = b0 := by omega
    rw [e1]
  | case4 =>
    intro out
    simp [b64encode, a2b]

/-- Round trip: urlsafe base64 decoding inverts encoding on byte sequences. -/
theorem b64decode_b64encode (bs : List Nat) (hb : IsBytes bs) :
    b64decode (b64encode bs) = some bs := by
  simpa using a2b_b64encode bs hb []

/-! ## The Fernet scheme (`cryptography.fernet.Fernet`)

`AESCipher` delegates all cryptography to `Fernet`.  A token is
`0x80 || timestamp(8, big-endian) || iv(16) || AES128-CBC(pad(p)) || HMAC(32)`,
urlsafe-base64 encoded.  The AES-128 block permutation (under the encryption
half of the key) and HMAC-SHA256 (under the signing half) are modelled as
explicit function parameters `encB`/`decB`/`hmacF`; the properties the library
guarantees for them are hypotheses (`CipherOK`, `HmacOK`). -/

/-- Pointwise xor of two byte strings (`zipWith`, as in CBC chaining). -/
def xorBytes (a b : List Nat) : List Nat := List.zipWith (fun x y => x ^^^ y) a b

/-- PKCS7 padding to the 16-byte AES block size. -/
def pkcs7Pad (data : List Nat) : List Nat :=
  data ++ List.replicate (16 - data.length % 16) (16 - data.length % 16)

/-- PKCS7 unpadding with full validation, as `cryptography`'s unpadder does:
the buffer must be a nonempty multiple of the block size and the last `k`
bytes must all equal `k` with `1 ≤ k ≤ 16`. -/
def pkcs7Unpad (l : List Nat) : Option (List Nat) :=
  l.getLast?.bind fun k =>
    if 1 ≤ k ∧ k ≤ 16 ∧ l.length % 16 = 0 ∧ l.drop (l.length - k) = List.replicate k k
    then some (l.take (l.length - k)) else none

/-- CBC encryption over a block list. -/
def cbcEncBlocks (encB : List Nat → List Nat) : List Nat → List (List Nat) → List (List Nat)
  | _, [] => []
  | prev, b :: bs => encB (xorBytes prev b) :: cbcEncBlocks encB (encB (xorBytes prev b)) bs

/-- CBC decryption over a block list. -/
def cbcDecBlocks (decB : List Nat → List Nat) : List Nat → List (List Nat) → List (List Nat)
  | _, [] => []
  | prev, c :: cs => xorBytes prev (decB c) :: cbcDecBlocks decB c cs

/-- Split a byte string into 16-byte blocks (fuel-based so it computes). -/
def chunksAux : Nat → List Nat → List (List Nat)
  | _, [] => []
  | 0, l => [l]
  | fuel + 1, l => l.take 16 :: chunksAux fuel (l.drop 16)

def chunks16 (l : List Nat) : List (List Nat) := chunksAux l.length l

/-- `struct.pack(">Q", ts)`: 8-byte big-endian timestamp. -/
def toBytesBE8 (n : Nat) : List Nat :=
  [n / 2 ^ 56 % 256, n / 2 ^ 48 % 256, n / 2 ^ 40 % 256, n / 2 ^ 32 % 256,
   n / 2 ^ 24 % 256, n / 2 ^ 16 % 256, n / 2 ^ 8 % 256, n % 256]

/-- What the library guarantees about the AES-128 block permutation pair. -/
structure CipherOK (encB decB : List Nat → List Nat) : Prop where
  dec_enc : ∀ b, b.length = 16 → IsBytes b → decB (encB b) = b
  len : ∀ b, b.length = 16 → IsBytes b → (encB b).length = 16
  bytes : ∀ b, b.length = 16 → IsBytes b → IsBytes (encB b)

/-- HMAC-SHA256 always produces a 32-byte tag of bytes. -/
structure HmacOK (hmacF : List Nat → List Nat) : Prop where
  len : ∀ x, (hmacF x).length = 32
  bytes : ∀ x, IsBytes (hmacF x)

/-- The signed portion of a Fernet token:
`0x80 || timestamp || iv || AES128-CBC(pad(p))`. -/
def fernetBasic (encB : List Nat → List Nat) (ts : Nat) (iv p : List Nat) : List Nat :=
  128 :: (toBytesBE8 ts ++ (iv ++ (cbcEncBlocks encB iv (chunks16 (pkcs7Pad p))).flatten))

/-- The raw Fernet token (`Fernet._encrypt_from_parts`), before base64. -/
def fernetToken (encB hmacF : List Nat → List Nat) (ts : Nat) (iv p : List Nat) : List Nat :=
  fernetBasic encB ts iv p ++ hmacF (fernetBasic encB ts iv p)

/-- `Fernet.encrypt` with the per-call randomness (timestamp, iv) explicit. -/
def fernetEncrypt (encB hmacF : List Nat → List Nat) (ts : Nat) (iv p : List Nat) : List Nat :=
  b64encode (fernetToken encB hmacF ts iv p)

/-- `data[:-32]`, the signed portion of a decoded token. -/
def bodyOf (d : List Nat) : List Nat := d.take (d.length - 32)

/-- `data[-32:]`, the stored HMAC tag of a decoded token. -/
def tagOf (d : List Nat) : List Nat := d.drop (d.length - 32)

/-- `data[9:25]`, the initialization vector of a decoded token. -/
def ivOf (d : List Nat) : List Nat := (d.drop 9).take 16

/-- `data[25:-32]`, the CBC ciphertext of a decoded token. -/
def ctOf (d : List Nat) : List Nat := (d.drop 25).take (d.length - 32 - 25)

/-- `Fernet.decrypt` after base64 decoding: version check, timestamp parse,
HMAC verification, then CBC decryption and PKCS7 unpadding; every failure is
`InvalidToken` (`none`). -/
def fernetDecData (decB hmacF : List Nat → List Nat) (data : List Nat) : Option (List Nat) :=
  if data.length < 9 then none
  else if data.head? ≠ some 128 then none
  else if tagOf data ≠ hmacF (bodyOf data) then none
  else if (ivOf data).length ≠ 16 ∨ (ctOf data).length % 16 ≠ 0 then none
  else pkcs7Unpad ((cbcDecBlocks decB (ivOf data) (chunks16 (ctOf data))).flatten)

/-- `Fernet.decrypt` (`none` is the library's `InvalidToken`, which
`AESCipher.decrypt` re-raises as its "Decryption failed" exception). -/
def fernetDecrypt (decB hmacF : List Nat → List Nat) (tok : List Nat) : Option (List Nat) :=
  (b64decode tok).bind (fernetDecData decB hmacF)

/-! ### Supporting lemmas for the Fernet round trip -/

theorem length_xorBytes (a b : List Nat) : (xorBytes a b).length = min a.length b.length := by
  simp [xorBytes]

theorem isBytes_xorBytes : ∀ a b : List Nat, IsBytes a → IsBytes b → IsBytes (xorBytes a b)
  | [], _, _, _ => by simp [xorBytes, IsBytes]
  | _ :: _, [], _, _ => by simp [xorBytes, IsBytes]
  | x :: a, y :: b, ha, hb => by
    intro z hz
    simp only [xorBytes, List.zipWith_cons_cons, List.mem_cons] at hz
    rcases hz with hz | hz
    · subst hz
      have hx : x < 2 ^ 8 := ha x (by simp)
      have hy : y < 2 ^ 8 := hb y (by simp)
      exact Nat.xor_lt_two_pow hx hy
    · exact isBytes_xorBytes a b (fun u hu => ha u (by simp [hu])) (fun u hu => hb u (by simp [hu])) z hz

theorem xorBytes_xorBytes (a : List Nat) : ∀ b : List Nat, a.length = b.length →
    xorBytes a (xorBytes a b) = b := by
  induction a with
  | nil =>
    intro b hb
    have : b = [] := List.eq_nil_of_length_eq_zero (by simpa using hb.symm)
    subst this
    simp [xorBytes]
  | cons x a ih =>
    intro b hb
    cases b with
    | nil => simp at hb
    | cons y b =>
      simp only [xorBytes, List.zipWith_cons_cons]
      rw [show x ^^^ (x ^^^ y) = y by rw [← Nat.xor_assoc, Nat.xor_self, Nat.zero_xor]]
      have := ih b (by simpa using hb)
      simp only [xorBytes] at this
      rw [this]

theorem chunksAux_succ_cons (fuel x : Nat) (xs : List Nat) :
    chunksAux (fuel + 1) (x :: xs) = (x :: xs).take 16 :: chunksAux fuel ((x :: xs).drop 16) :=
  rfl

theorem join_chunksAux : ∀ (fuel : Nat) (l : List Nat), (chunksAux fuel l).flatten = l := by
  intro fuel
  induction fuel with
  | zero => intro l; cases l <;> simp [chunksAux]
  | succ fuel ih =>
    intro l
    cases l with
    | nil => simp [chunksAux]
    | cons x xs =>
      rw [chunksAux_succ_cons]
      simp [ih]

theorem chunksAux_length_16 : ∀ (fuel : Nat) (l : List Nat), l.length ≤ 16 * fuel →
    l.length % 16 = 0 → ∀ b ∈ chunksAux fuel l, b.length = 16 := by
  intro fuel
  induction fuel with
  | zero =>
    intro l hl _ b hb
    cases l with
    | nil => simp [chunksAux] at hb
    | cons x xs => simp at hl
  | succ fuel ih =>
    intro l hl hm b hb
    cases l with
    | nil => simp [chunksAux] at hb
    | cons x xs =>
      rw [chunksAux_succ_cons] at hb
      rcases List.mem_cons.mp hb with h | h
      · subst h
        simp only [List.length_take, List.length_cons] at hm ⊢
        omega
      · have hd : ((x :: xs).drop 16).length = (x :: xs).length - 16 := by
          simp
        refine ih _ ?_ ?_ b h
        · rw [hd]; simp only [List.length_cons] at hl ⊢; omega
        · rw [hd]; simp only [List.length_cons] at hm ⊢; omega

theorem chunksAux_bytes : ∀ (fuel : Nat) (l : List Nat), IsBytes l →
    ∀ b ∈ chunksAux fuel l, IsBytes b := by
  intro fuel
  induction fuel with
  | zero =>
    intro l hl b hb
    cases l with
    | nil => simp [chunksAux] at hb
    | cons x xs =>
      simp only [chunksAux, List.mem_singleton] at hb
      subst hb; exact hl
  | succ fuel ih =>
    intro l hl b hb
    cases l with
    | nil => simp [chunksAux] at hb
    | cons x xs =>
      rw [chunksAux_succ_cons] at hb
      rcases List.mem_cons.mp hb with h | h
      · subst h
        exact fun u hu => hl u (List.mem_of_mem_take hu)
      · exact ih _ (fun u hu => hl u (List.mem_of_mem_drop hu)) b h

/-- Splitting a flattening of 16-byte blocks recovers the blocks. -/
theorem chunksAux_join : ∀ (blocks : List (List Nat)) (fuel : Nat),
    (∀ b ∈ blocks, b.length = 16) → blocks.length ≤ fuel →
    chunksAux fuel blocks.flatten = blocks := by
  intro blocks
  induction blocks with
  | nil => intro fuel _ _; cases fuel <;> simp [chunksAux]
  | cons b bs ih =>
    intro fuel hlen hfuel
    have hb : b.length = 16 := hlen b (by simp)
    cases fuel with
    | zero => simp at hfuel
    | succ fuel =>
      cases b with
      | nil => simp at hb
      | cons x xs =>
        rw [List.flatten_cons, List.cons_append, chunksAux_succ_cons, ← List.cons_append]
        rw [List.take_left' hb, List.drop_left' hb]
        rw [ih fuel (fun c hc => hlen c (by simp [hc])) (by simp at hfuel; omega)]

theorem flatten_length_16 : ∀ ls : List (List Nat), (∀ b ∈ ls, b.length = 16) →
    ls.flatten.length = 16 * ls.length := by
  intro ls
  induction ls with
  | nil => simp
  | cons b bs ih =>
    intro h
    rw [List.flatten_cons, List.length_append, h b (by simp),
      ih (fun c hc => h c (by simp [hc]))]
    simp
    ring

theorem isBytes_flatten : ∀ ls : List (List Nat), (∀ b ∈ ls, IsBytes b) →
    IsBytes ls.flatten := by
  intro ls
  induction ls with
  | nil => intro _; simp [IsBytes]
  | cons b bs ih =>
    intro h x hx
    rw [List.flatten_cons] at hx
    rcases List.mem_append.mp hx with hx | hx
    · exact h b (by simp) x hx
    · exact ih (fun c hc => h c (by simp [hc])) x hx

@[simp]
theorem length_toBytesBE8 (n : Nat) : (toBytesBE8 n).length = 8 := rfl

/-- Splitting the flattening of 16-byte blocks gives back the blocks. -/
theorem chunks16_flatten (blocks : List (List Nat)) (h : ∀ b ∈ blocks, b.length = 16) :
    chunks16 blocks.flatten = blocks := by
  rw [chunks16]
  refine chunksAux_join blocks _ h ?_
  rw [flatten_length_16 blocks h]
  omega

theorem flatten_chunks16 (l : List Nat) : (chunks16 l).flatten = l :=
  join_chunksAux _ _

theorem isBytes_toBytesBE8 (n : Nat) : IsBytes (toBytesBE8 n) := by
  intro b hb
  simp only [toBytesBE8, List.mem_cons, List.not_mem_nil, or_false] at hb
  rcases hb with h | h | h | h | h | h | h | h <;> subst h <;> omega

theorem length_pkcs7Pad (p : List Nat) :
    (pkcs7Pad p).length = p.length + (16 - p.length % 16) := by
  simp [pkcs7Pad]

theorem isBytes_pkcs7Pad (p : List Nat) (hp : IsBytes p) : IsBytes (pkcs7Pad p) := by
  intro b hb
  rcases List.mem_append.mp hb with h | h
  · exact hp b h
  · have := List.eq_of_mem_replicate h
    omega

/-- PKCS7 unpadding inverts padding. -/
theorem pkcs7Unpad_pad (p : List Nat) : pkcs7Unpad (pkcs7Pad p) = some p := by
  have hk1 : 1 ≤ 16 - p.length % 16 := by omega
  have hk16 : 16 - p.length % 16 ≤ 16 := by omega
  have hrep : List.replicate (16 - p.length % 16) (16 - p.length % 16) =
      List.replicate (16 - p.length % 16 - 1) (16 - p.length % 16) ++ [16 - p.length % 16] := by
    rw [← List.replicate_succ']
    congr 1
    omega
  have hlast : (pkcs7Pad p).getLast? = some (16 - p.length % 16) := by
    rw [pkcs7Pad, hrep, ← List.append_assoc, List.getLast?_concat]
  have hsub : (pkcs7Pad p).length - (16 - p.length % 16) = p.length := by
    rw [length_pkcs7Pad]; omega
  rw [pkcs7Unpad, hlast, Option.some_bind]
  rw [if_pos]
  · rw [hsub, pkcs7Pad, List.take_left]
  · refine ⟨hk1, hk16, ?_, ?_⟩
    · rw [length_pkcs7Pad]; omega
    · rw [hsub, pkcs7Pad, List.drop_left]

/-- CBC decryption inverts CBC encryption block-by-block, and all ciphertext
blocks are 16-byte byte strings. -/
theorem cbc_roundtrip {encB decB : List Nat → List Nat} (hc : CipherOK encB decB) :
    ∀ (blocks : List (List Nat)) (iv : List Nat), iv.length = 16 → IsBytes iv →
    (∀ b ∈ blocks, b.length = 16 ∧ IsBytes b) →
    (∀ c ∈ cbcEncBlocks encB iv blocks, c.length = 16 ∧ IsBytes c) ∧
    cbcDecBlocks decB iv (cbcEncBlocks encB iv blocks) = blocks := by
  intro blocks
  induction blocks with
  | nil =>
    intro iv _ _ _
    exact ⟨by simp [cbcEncBlocks], by simp [cbcEncBlocks, cbcDecBlocks]⟩
  | cons b bs ih =>
    intro iv hivl hivb hbl
    obtain ⟨hbl16, hbb⟩ := hbl b (by simp)
    have hx_len : (xorBytes iv b).length = 16 := by
      rw [length_xorBytes, hivl, hbl16]; simp
    have hx_b : IsBytes (xorBytes iv b) := isBytes_xorBytes iv b hivb hbb
    have hc_len : (encB (xorBytes iv b)).length = 16 := hc.len _ hx_len hx_b
    have hc_b : IsBytes (encB (xorBytes iv b)) := hc.bytes _ hx_len hx_b
    obtain ⟨ih1, ih2⟩ := ih (encB (xorBytes iv b)) hc_len hc_b
      (fun c hcm => hbl c (by simp [hcm]))
    constructor
    · intro c hcm
      rw [cbcEncBlocks] at hcm
      rcases List.mem_cons.mp hcm with h | h
      · subst h; exact ⟨hc_len, hc_b⟩
      · exact ih1 c h
    · rw [cbcEncBlocks, cbcDecBlocks]
      rw [hc.dec_enc _ hx_len hx_b]
      rw [xorBytes_xorBytes iv b (by rw [hivl, hbl16])]
      rw [ih2]

/-- Core Fernet round trip on the decoded token. -/
theorem fernetDecData_token {encB decB hmacF : List Nat → List Nat}
    (hc : CipherOK encB decB) (hh : HmacOK hmacF) (ts : Nat) (iv p : List Nat)
    (hiv : iv.length = 16) (hivb : IsBytes iv) (hp : IsBytes p) :
    fernetDecData decB hmacF (fernetToken encB hmacF ts iv p) = some p := by
  have hpad0 : (pkcs7Pad p).length % 16 = 0 := by rw [length_pkcs7Pad]; omega
  have hpadb : IsBytes (pkcs7Pad p) := isBytes_pkcs7Pad p hp
  have hblocks : ∀ b ∈ chunks16 (pkcs7Pad p), b.length = 16 ∧ IsBytes b := fun b hb =>
    ⟨chunksAux_length_16 _ _ (by omega) hpad0 b hb, chunksAux_bytes _ _ hpadb b hb⟩
  obtain ⟨hcts, hdec⟩ := cbc_roundtrip hc (chunks16 (pkcs7Pad p)) iv hiv hivb hblocks
  have hctlen : (cbcEncBlocks encB iv (chunks16 (pkcs7Pad p))).flatten.length =
      16 * (cbcEncBlocks encB iv (chunks16 (pkcs7Pad p))).length :=
    flatten_length_16 _ (fun c hcm => (hcts c hcm).1)
  have hctb : IsBytes (cbcEncBlocks encB iv (chunks16 (pkcs7Pad p))).flatten :=
    isBytes_flatten _ (fun c hcm => (hcts c hcm).2)
  have htoklen : (fernetBasic encB ts iv p).length =
      25 + (cbcEncBlocks encB iv (chunks16 (pkcs7Pad p))).flatten.length := by
    rw [fernetBasic]
    simp only [List.length_cons, List.length_append, length_toBytesBE8, hiv]
    omega
  have htag32 : (hmacF (fernetBasic encB ts iv p)).length = 32 := hh.len _
  have hdata : fernetToken encB hmacF ts iv p =
      fernetBasic encB ts iv p ++ hmacF (fernetBasic encB ts iv p) := rfl
  have hdlen : (fernetToken encB hmacF ts iv p).length =
      (fernetBasic encB ts iv p).length + 32 := by
    rw [hdata, List.length_append, htag32]
  rw [fernetDecData]
  rw [if_neg (by omega)]
  have hhead : (fernetToken encB hmacF ts iv p).head? = some 128 := by
    rw [hdata, fernetBasic, List.cons_append, List.head?_cons]
  rw [if_neg (by rw [hhead]; simp)]
  have hbody : bodyOf (fernetToken encB hmacF ts iv p) = fernetBasic encB ts iv p := by
    rw [bodyOf, hdlen, Nat.add_sub_cancel, hdata, List.take_left]
  have htagof : tagOf (fernetToken encB hmacF ts iv p) = hmacF (fernetBasic encB ts iv p) := by
    rw [tagOf, hdlen, Nat.add_sub_cancel, hdata, List.drop_left]
  rw [if_neg (by rw [hbody, htagof]; simp)]
  have hassoc : fernetToken encB hmacF ts iv p =
      ([128] ++ toBytesBE8 ts) ++ (iv ++ ((cbcEncBlocks encB iv (chunks16 (pkcs7Pad p))).flatten ++
        hmacF (fernetBasic encB ts iv p))) := by
    rw [hdata, fernetBasic]
    simp
  have hiv_of : ivOf (fernetToken encB hmacF ts iv p) = iv := by
    rw [ivOf, hassoc, List.drop_left' (by simp), List.take_left' hiv]
  have hassoc2 : fernetToken encB hmacF ts iv p =
      (([128] ++ toBytesBE8 ts) ++ iv) ++ ((cbcEncBlocks encB iv (chunks16 (pkcs7Pad p))).flatten ++
        hmacF (fernetBasic encB ts iv p)) := by
    rw [hassoc]
    simp
  have hct_of : ctOf (fernetToken encB hmacF ts iv p) =
      (cbcEncBlocks encB iv (chunks16 (pkcs7Pad p))).flatten := by
    rw [ctOf, hassoc2, List.drop_left' (by simp [hiv])]
    rw [List.take_left']
    simp only [List.length_append, List.length_cons, List.length_nil, length_toBytesBE8,
      hiv, htag32]
    omega
  rw [if_neg]
  · rw [hiv_of, hct_of]
    rw [chunks16_flatten _ (fun c hcm => (hcts c hcm).1)]
    rw [hdec]
    rw [flatten_chunks16]
    exact pkcs7Unpad_pad p
  · rw [hiv_of, hct_of]
    push_neg
    exact ⟨hiv, by rw [hctlen]; omega⟩

/-- A Fernet token consists of bytes. -/
theorem isBytes_fernetToken {encB decB hmacF : List Nat → List Nat}
    (hc : CipherOK encB decB) (hh : HmacOK hmacF) (ts : Nat) (iv p : List Nat)
    (hiv : iv.length = 16) (hivb : IsBytes iv) (hp : IsBytes p) :
    IsBytes (fernetToken encB hmacF ts iv p) := by
  have hpad0 : (pkcs7Pad p).length % 16 = 0 := by rw [length_pkcs7Pad]; omega
  have hpadb : IsBytes (pkcs7Pad p) := isBytes_pkcs7Pad p hp
  have hblocks : ∀ b ∈ chunks16 (pkcs7Pad p), b.length = 16 ∧ IsBytes b := fun b hb =>
    ⟨chunksAux_length_16 _ _ (by omega) hpad0 b hb, chunksAux_bytes _ _ hpadb b hb⟩
  obtain ⟨hcts, _⟩ := cbc_roundtrip hc (chunks16 (pkcs7Pad p)) iv hiv hivb hblocks
  have hctb : IsBytes (cbcEncBlocks encB iv (chunks16 (pkcs7Pad p))).flatten :=
    isBytes_flatten _ (fun c hcm => (hcts c hcm).2)
  intro b hb
  rw [fernetToken] at hb
  rcases List.mem_append.mp hb with hb | hb
  · rw [fernetBasic] at hb
    rcases List.mem_cons.mp hb with hb | hb
    · omega
    rcases List.mem_append.mp hb with hb | hb
    · exact isBytes_toBytesBE8 ts b hb
    rcases List.mem_append.mp hb with hb | hb
    · exact hivb b hb
    · exact hctb b hb
  · exact hh.bytes _ b hb

/-- Full Fernet round trip including the base64 transport encoding. -/
theorem fernetDecrypt_fernetEncrypt {encB decB hmacF : List Nat → List Nat}
    (hc : CipherOK encB decB) (hh : HmacOK hmacF) (ts : Nat) (iv p : List Nat)
    (hiv : iv.length = 16) (hivb : IsBytes iv) (hp : IsBytes p) :
    fernetDecrypt decB hmacF (fernetEncrypt encB hmacF ts iv p) = some p := by
  rw [fernetDecrypt, fernetEncrypt,
    b64decode_b64encode _ (isBytes_fernetToken hc hh ts iv p hiv hivb hp),
    Option.some_bind]
  exact fernetDecData_token hc hh ts iv p hiv hivb hp

/-! ## UTF-8 (`str.encode("utf-8")` / `bytes.decode("utf-8")`)

The encoder is total on Lean `Char` (Unicode scalar values, exactly the values
a CPython `str` without lone surrogates can hold).  The decoder checks leading
and continuation byte ranges; overlong forms that the encoder cannot produce
are not all rejected, which does not affect any statement below since the
decoder is only ever applied to encoder output. -/

/-- UTF-8 bytes of one code point. -/
def utf8Char (c : Nat) : List Nat :=
  if c < 128 then [c]
  else if c < 2048 then [192 + c / 64, 128 + c % 64]
  else if c < 65536 then [224 + c / 4096, 128 + c / 64 % 64, 128 + c % 64]
  else [240 + c / 262144, 128 + c / 4096 % 64, 128 + c / 64 % 64, 128 + c % 64]

/-- `str.encode("utf-8")`. -/
def utf8Enc (s : List Char) : List Nat := (s.map (fun c => utf8Char c.toNat)).flatten

/-- Destructure one byte off a byte string. -/
def uncons : List Nat → Option (Nat × List Nat)
  | [] => none
  | b :: r => some (b, r)

/-- Decode one UTF-8 character from a first byte and the remaining input,
returning the character and the unconsumed rest (`none` on malformed input). -/
def utf8Step (b : Nat) (rest : List Nat) : Option (Char × List Nat) :=
  if b < 128 then some (Char.ofNat b, rest)
  else if b < 194 then none
  else if b < 224 then
    (uncons rest).bind fun p =>
      if 128 ≤ p.1 ∧ p.1 < 192 then
        some (Char.ofNat ((b - 192) * 64 + (p.1 - 128)), p.2)
      else none
  else if b < 240 then
    (uncons rest).bind fun p => (uncons p.2).bind fun q =>
      if (128 ≤ p.1 ∧ p.1 < 192) ∧ (128 ≤ q.1 ∧ q.1 < 192) then
        some (Char.ofNat ((b - 224) * 4096 + ((p.1 - 128) * 64 + (q.1 - 128))), q.2)
      else none
  else if b < 245 then
    (uncons rest).bind fun p => (uncons p.2).bind fun q => (uncons q.2).bind fun w =>
      if (128 ≤ p.1 ∧ p.1 < 192) ∧ (128 ≤ q.1 ∧ q.1 < 192) ∧ (128 ≤ w.1 ∧ w.1 < 192) then
        some (Char.ofNat ((b - 240) * 262144 +
          ((p.1 - 128) * 4096 + ((q.1 - 128) * 64 + (w.1 - 128)))), w.2)
      else none
  else none

/-- `bytes.decode("utf-8")` (raising, i.e. `none`, on malformed sequences);
fuel-based so it is structurally recursive; one unit of fuel is spent per
decoded character, so `l.length` fuel always suffices. -/
def utf8DecAux : Nat → List Nat → Option (List Char)
  | _, [] => some []
  | 0, _ :: _ => none
  | fuel + 1, b :: rest =>
    (utf8Step b rest).bind fun pr => (utf8DecAux fuel pr.2).map (fun s => pr.1 :: s)

def utf8Dec (l : List Nat) : Option (List Char) := utf8DecAux l.length l

theorem char_toNat_lt (c : Char) : c.toNat < 1114112 := by
  have hv : c.toNat = c.val.toNat := rfl
  rcases c.valid with h | h
  · omega
  · omega

theorem isBytes_utf8Char (c : Nat) (h : c < 1114112) : IsBytes (utf8Char c) := by
  intro b hb
  rw [utf8Char] at hb
  by_cases h1 : c < 128
  · rw [if_pos h1] at hb
    simp at hb
    omega
  · rw [if_neg h1] at hb
    by_cases h2 : c < 2048
    · rw [if_pos h2] at hb
      simp at hb
      rcases hb with hb | hb <;> omega
    · rw [if_neg h2] at hb
      by_cases h3 : c < 65536
      · rw [if_pos h3] at hb
        simp at hb
        rcases hb with hb | hb | hb <;> omega
      · rw [if_neg h3] at hb
        simp at hb
        rcases hb with hb | hb | hb | hb <;> omega

theorem isBytes_utf8Enc (s : List Char) : IsBytes (utf8Enc s) := by
  intro b hb
  rw [utf8Enc] at hb
  obtain ⟨l, hl, hbl⟩ := List.mem_flatten.mp hb
  obtain ⟨c, _, rfl⟩ := List.mem_map.mp hl
  exact isBytes_utf8Char c.toNat (char_toNat_lt c) b hbl

theorem length_utf8Char_pos (c : Nat) : 0 < (utf8Char c).length := by
  rw [utf8Char]
  by_cases h1 : c < 128
  · rw [if_pos h1]; simp
  · rw [if_neg h1]
    by_cases h2 : c < 2048
    · rw [if_pos h2]; simp
    · rw [if_neg h2]
      by_cases h3 : c < 65536
      · rw [if_pos h3]; simp
      · rw [if_neg h3]; simp

theorem length_le_utf8Enc (s : List Char) : s.length ≤ (utf8Enc s).length := by
  induction s with
  | nil => simp [utf8Enc]
  | cons c s ih =>
    have : utf8Enc (c :: s) = utf8Char c.toNat ++ utf8Enc s := by
      rw [utf8Enc, List.map_cons, List.flatten_cons]
      rfl
    rw [this, List.length_append, List.length_cons]
    have := length_utf8Char_pos c.toNat
    omega

/-- Decoding one step inverts encoding one character. -/
theorem utf8Step_utf8Char (c : Char) (tail : List Nat) :
    ∃ b r, utf8Char c.toNat = b :: r ∧ utf8Step b (r ++ tail) = some (c, tail) := by
  have hcv : c.toNat < 1114112 := char_toNat_lt c
  have hofnat : Char.ofNat c.toNat = c := Char.ofNat_toNat c
  rw [utf8Char]
  by_cases h1 : c.toNat < 128
  · rw [if_pos h1]
    refine ⟨c.toNat, [], rfl, ?_⟩
    rw [utf8Step, if_pos h1, List.nil_append, hofnat]
  · rw [if_neg h1]
    by_cases h2 : c.toNat < 2048
    · rw [if_pos h2]
      refine ⟨192 + c.toNat / 64, [128 + c.toNat % 64], rfl, ?_⟩
      rw [utf8Step]
      rw [if_neg (by omega), if_neg (by omega), if_pos (by omega)]
      rw [show uncons ([128 + c.toNat % 64] ++ tail) =
        some (128 + c.toNat % 64, tail) from rfl, Option.some_bind]
      rw [if_pos (by constructor <;> omega)]
      rw [show (192 + c.toNat / 64 - 192) * 64 + (128 + c.toNat % 64 - 128) = c.toNat by omega]
      rw [hofnat]
    · rw [if_neg h2]
      by_cases h3 : c.toNat < 65536
      · rw [if_pos h3]
        refine ⟨224 + c.toNat / 4096, [128 + c.toNat / 64 % 64, 128 + c.toNat % 64], rfl, ?_⟩
        rw [utf8Step]
        rw [if_neg (by omega), if_neg (by omega), if_neg (by omega), if_pos (by omega)]
        rw [show uncons ([128 + c.toNat / 64 % 64, 128 + c.toNat % 64] ++ tail) =
          some (128 + c.toNat / 64 % 64, (128 + c.toNat % 64) :: tail) from rfl,
          Option.some_bind]
        rw [show uncons ((128 + c.toNat % 64) :: tail) =
          some (128 + c.toNat % 64, tail) from rfl, Option.some_bind]
        rw [if_pos (by refine ⟨⟨by omega, by omega⟩, by omega, by omega⟩)]
        rw [show (224 + c.toNat / 4096 - 224) * 4096 + ((128 + c.toNat / 64 % 64 - 128) * 64 +
          (128 + c.toNat % 64 - 128)) = c.toNat by omega]
        rw [hofnat]
      · rw [if_neg h3]
        refine ⟨240 + c.toNat / 262144,
          [128 + c.toNat / 4096 % 64, 128 + c.toNat / 64 % 64, 128 + c.toNat % 64], rfl, ?_⟩
        rw [utf8Step]
        rw [if_neg (by omega), if_neg (by omega), if_neg (by omega), if_neg (by omega),
          if_pos (by omega)]
        rw [show uncons ([128 + c.toNat / 4096 % 64, 128 + c.toNat / 64 % 64,
          128 + c.toNat % 64] ++ tail) = some (128 + c.toNat / 4096 % 64,
          (128 + c.toNat / 64 % 64) :: (128 + c.toNat % 64) :: tail) from rfl, Option.some_bind]
        rw [show uncons ((128 + c.toNat / 64 % 64) :: (128 + c.toNat % 64) :: tail) =
          some (128 + c.toNat / 64 % 64, (128 + c.toNat % 64) :: tail) from rfl,
          Option.some_bind]
        rw [show uncons ((128 + c.toNat % 64) :: tail) =
          some (128 + c.toNat % 64, tail) from rfl, Option.some_bind]
        rw [if_pos (by refine ⟨⟨by omega, by omega⟩, ⟨by omega, by omega⟩, by omega, by omega⟩)]
        rw [show (240 + c.toNat / 262144 - 240) * 262144 + ((128 + c.toNat / 4096 % 64 - 128) *
          4096 + ((128 + c.toNat / 64 % 64 - 128) * 64 + (128 + c.toNat % 64 - 128))) = c.toNat
          by omega]
        rw [hofnat]

/-- UTF-8 decoding inverts encoding (with enough fuel for every character). -/
theorem utf8DecAux_utf8Enc (s : List Char) : ∀ fuel, s.length ≤ fuel →
    utf8DecAux fuel (utf8Enc s) = some s := by
  induction s with
  | nil =>
    intro fuel _
    cases fuel <;> rfl
  | cons c s ih =>
    intro fuel hfuel
    cases fuel with
    | zero => simp at hfuel
    | succ fuel =>
      have hfs : s.length ≤ fuel := by simp at hfuel; omega
      have henc : utf8Enc (c :: s) = utf8Char c.toNat ++ utf8Enc s := by
        rw [utf8Enc, List.map_cons, List.flatten_cons]
        rfl
      obtain ⟨b, r, hchar, hstep⟩ := utf8Step_utf8Char c (utf8Enc s)
      rw [henc, hchar, List.cons_append]
      rw [utf8DecAux, hstep, Option.some_bind]
      rw [ih fuel hfs, Option.map_some']

/-- UTF-8 decoding inverts encoding. -/
theorem utf8Dec_utf8Enc (s : List Char) : utf8Dec (utf8Enc s) = some s :=
  utf8DecAux_utf8Enc s _ (length_le_utf8Enc s)

/-! ## `AESCipher.encrypt` / `AESCipher.decrypt` (src/ftp-ext/encryption.py)

A value passed to them is either a `str` or `bytes`; `str` input is UTF-8
encoded first.  `encrypt` delegates to `Fernet.encrypt`; `decrypt` delegates
to `Fernet.decrypt` and always returns the raw decrypted `bytes`. -/

inductive PyData
  | str (s : List Char)
  | bytes (b : List Nat)
deriving DecidableEq

/-- The `isinstance(data, str)` branch: a `str` is UTF-8 encoded, `bytes`
pass through. -/
def pyDataBytes : PyData → List Nat
  | .str s => utf8Enc s
  | .bytes b => b

/-- `AESCipher.encrypt` (the timestamp and iv drawn by Fernet are explicit). -/
def aesCipher_encrypt (encB hmacF : List Nat → List Nat) (ts : Nat) (iv : List Nat)
    (data : PyData) : List Nat :=
  fernetEncrypt encB hmacF ts iv (pyDataBytes data)

/-- `AESCipher.decrypt`; the result, when it exists, is always `bytes`. -/
def aesCipher_decrypt (decB hmacF : List Nat → List Nat) (data : PyData) : Option PyData :=
  (fernetDecrypt decB hmacF (pyDataBytes data)).map PyData.bytes

/-! ### Concrete block-cipher and HMAC instances used to evaluate the
theorems on explicit inputs (any `CipherOK`/`HmacOK` pair works; the identity
permutation and a constant 32-byte tag are the simplest). -/

def idB : List Nat → List Nat := fun b => b

def hmac0 : List Nat → List Nat := fun _ => List.replicate 32 0

theorem cipherOK_idB : CipherOK idB idB :=
  ⟨fun _ _ _ => rfl, fun _ hb _ => hb, fun _ _ hb => hb⟩

theorem hmacOK_hmac0 : HmacOK hmac0 :=
  ⟨fun _ => rfl, fun _ b hb => by
    have := List.eq_of_mem_replicate hb
    omega⟩

def iv0 : List Nat := List.replicate 16 0

/-- Claim C2: for every byte sequence `p` (including the empty sequence and
sequences that are not valid text), decrypting the ciphertext produced by
encrypting `p` with the same key returns exactly `p`:
`decrypt(encrypt(p)) == p` (`AESCipher.encrypt`/`AESCipher.decrypt`,
src/ftp-ext/encryption.py). -/
theorem C2_decrypt_encrypt_roundtrip (encB decB hmacF : List Nat → List Nat)
    (hc : CipherOK encB decB) (hh : HmacOK hmacF) (ts : Nat) (iv : List Nat)
    (hiv : iv.length = 16) (hivb : IsBytes iv) (p : List Nat) (hp : IsBytes p) :
    aesCipher_decrypt decB hmacF (.bytes (aesCipher_encrypt encB hmacF ts iv (.bytes p))) =
      some (.bytes p) := by
  rw [aesCipher_decrypt, aesCipher_encrypt]
  show (fernetDecrypt decB hmacF (fernetEncrypt encB hmacF ts iv p)).map PyData.bytes = _
  rw [fernetDecrypt_fernetEncrypt hc hh ts iv p hiv hivb hp]
  rfl

/-- Witness for C2, at the empty byte string and at the non-text byte string
`[255]`. -/
theorem C2_witness :
    aesCipher_decrypt idB hmac0 (.bytes (aesCipher_encrypt idB hmac0 0 iv0 (.bytes []))) =
      some (.bytes []) ∧
    aesCipher_decrypt idB hmac0 (.bytes (aesCipher_encrypt idB hmac0 0 iv0 (.bytes [255]))) =
      some (.bytes [255]) :=
  ⟨C2_decrypt_encrypt_roundtrip idB idB hmac0 cipherOK_idB hmacOK_hmac0 0 iv0 (by decide)
      (by decide) [] (by decide),
    C2_decrypt_encrypt_roundtrip idB idB hmac0 cipherOK_idB hmacOK_hmac0 0 iv0 (by decide)
      (by decide) [255] (by decide)⟩

/-- Claim C10: `encrypt` and `decrypt` also accept `str` (not only `bytes`)
input by UTF-8-encoding it first: for every string `s`, `encrypt(s)` equals
`encrypt` of the UTF-8 bytes of `s`, and `decrypt(encrypt(s))` returns the
UTF-8 byte encoding of `s` — as `bytes`, never as `str`. -/
theorem C10_str_input (encB decB hmacF : List Nat → List Nat)
    (hc : CipherOK encB decB) (hh : HmacOK hmacF) (ts : Nat) (iv : List Nat)
    (hiv : iv.length = 16) (hivb : IsBytes iv) (s : List Char) :
    aesCipher_encrypt encB hmacF ts iv (.str s) =
      aesCipher_encrypt encB hmacF ts iv (.bytes (utf8Enc s)) ∧
    aesCipher_decrypt decB hmacF (.bytes (aesCipher_encrypt encB hmacF ts iv (.str s))) =
      some (.bytes (utf8Enc s)) := by
  constructor
  · rfl
  · rw [aesCipher_decrypt, aesCipher_encrypt]
    show (fernetDecrypt decB hmacF (fernetEncrypt encB hmacF ts iv (utf8Enc s))).map
      PyData.bytes = _
    rw [fernetDecrypt_fernetEncrypt hc hh ts iv (utf8Enc s) hiv hivb (isBytes_utf8Enc s)]
    rfl

/-- Witness for C10 at the string `"hi"`. -/
theorem C10_witness :
    aesCipher_encrypt idB hmac0 0 iv0 (.str ['h', 'i']) =
      aesCipher_encrypt idB hmac0 0 iv0 (.bytes (utf8Enc ['h', 'i'])) ∧
    aesCipher_decrypt idB hmac0 (.bytes (aesCipher_encrypt idB hmac0 0 iv0 (.str ['h', 'i']))) =
      some (.bytes (utf8Enc ['h', 'i'])) :=
  C10_str_input idB idB hmac0 cipherOK_idB hmacOK_hmac0 0 iv0 (by decide) (by decide) ['h', 'i']

/-- Claim C6 is false as stated: a ciphertext is a urlsafe-base64 text, and
`binascii.a2b_base64` ignores the unused low bits of the final base64 group;
changing byte 97 of this 100-byte ciphertext from `A` (65) to `B` (66) is a
single-byte modification after which `decrypt` still succeeds — it does not
fail with `DecryptionError` — returning the original plaintext. -/
theorem C6_counterexample :
    (fernetEncrypt idB hmac0 0 iv0 [104, 105]).length = 100 ∧
    (fernetEncrypt idB hmac0 0 iv0 [104, 105])[97]? = some 65 ∧
    fernetDecrypt idB hmac0 (fernetEncrypt idB hmac0 0 iv0 [104, 105]) = some [104, 105] ∧
    fernetDecrypt idB hmac0 ((fernetEncrypt idB hmac0 0 iv0 [104, 105]).set 97 66) =
      some [104, 105] := by
  decide

/-- Claim C6 as amended: a single-byte modification of a ciphertext either
leaves the decoded token bytes unchanged — in which case `decrypt` succeeds
with exactly the original plaintext, never an altered one — or it changes or
invalidates the base64 decoding, in which case `decrypt` fails whenever the
recomputed HMAC of the modified token body does not coincide with its stored
tag (and a failing base64 decoding always makes `decrypt` fail). -/
theorem C6_tamper_amended (encB decB hmacF : List Nat → List Nat)
    (hc : CipherOK encB decB) (hh : HmacOK hmacF) (ts : Nat) (iv p : List Nat)
    (hiv : iv.length = 16) (hivb : IsBytes iv) (hp : IsBytes p) (i v : Nat) :
    (b64decode ((fernetEncrypt encB hmacF ts iv p).set i v) =
        b64decode (fernetEncrypt encB hmacF ts iv p) →
      fernetDecrypt decB hmacF ((fernetEncrypt encB hmacF ts iv p).set i v) = some p) ∧
    (∀ d, b64decode ((fernetEncrypt encB hmacF ts iv p).set i v) = some d →
      hmacF (bodyOf d) ≠ tagOf d →
      fernetDecrypt decB hmacF ((fernetEncrypt encB hmacF ts iv p).set i v) = none) ∧
    (b64decode ((fernetEncrypt encB hmacF ts iv p).set i v) = none →
      fernetDecrypt decB hmacF ((fernetEncrypt encB hmacF ts iv p).set i v) = none) := by
  refine ⟨?_, ?_, ?_⟩
  · intro h
    have hrt := fernetDecrypt_fernetEncrypt hc hh ts iv p hiv hivb hp
    rw [fernetDecrypt] at hrt ⊢
    rw [h]
    exact hrt
  · intro d hd hne
    rw [fernetDecrypt, hd, Option.some_bind]
    rw [fernetDecData]
    split_ifs with h1 h2 h3 h4
    · rfl
    · rfl
    · rfl
    · rfl
    · exact absurd (not_not.mp h3).symm hne
  · intro h
    rw [fernetDecrypt, h]
    rfl

/-- Witness for the amended C6: at the concrete single-byte modification of
`C6_counterexample` (which leaves the decoded token unchanged), `decrypt`
returns exactly the original plaintext. -/
theorem C6_tamper_amended_witness :
    fernetDecrypt idB hmac0 ((fernetEncrypt idB hmac0 0 iv0 [104, 105]).set 97 66) =
      some [104, 105] :=
  (C6_tamper_amended idB idB hmac0 cipherOK_idB hmacOK_hmac0 0 iv0 [104, 105] (by decide)
    (by decide) (by decide) 97 66).1 (by decide)

/-! ## `SFTPManager` (src/ftp-ext/sftp_client.py)

Each public operation first checks `self.dev_mode` and then validates its
argument; only after that does it call the private `_*_via_sftp` helper,
whose first statement is `self._get_sftp_connection()`.  The model therefore
maps each operation to either a structured failure dict returned with no
network I/O (`reject`), or the entry into the `_*_via_sftp` helper
(`connect`), carrying the exact argument the operation proceeds with. -/

inductive TransportAction
  | reject (msg : List Char)
  | connect (arg : Option (List Char))
deriving DecidableEq

def devModeError : List Char :=
  "SFTP not configured - running in development mode".data

def invalidFilenameError : List Char := "Invalid filename".data

def invalidDirectoryError : List Char := "Invalid directory path".data

/-- `os.path.basename` (POSIX): everything after the last `/`. -/
def basename (s : List Char) : List Char :=
  (s.reverse.takeWhile (fun c => c ≠ '/')).reverse

/-- `SFTPManager.upload_file`: dev-mode check, then
`sanitized = os.path.basename(remote_filename)`; reject when the sanitized
name is empty or starts with a dot, otherwise proceed over the network with
the sanitized name. -/
def upload_file (dev_mode : Bool) (remote_filename : List Char) : TransportAction :=
  if dev_mode then .reject devModeError
  else if basename remote_filename = [] ∨ (basename remote_filename).head? = some '.' then
    .reject invalidFilenameError
  else .connect (some (basename remote_filename))

/-- `SFTPManager.download_file`: same checks as `upload_file`. -/
def download_file (dev_mode : Bool) (remote_filename : List Char) : TransportAction :=
  if dev_mode then .reject devModeError
  else if basename remote_filename = [] ∨ (basename remote_filename).head? = some '.' then
    .reject invalidFilenameError
  else .connect (some (basename remote_filename))

/-- `SFTPManager.delete_file`: same checks as `upload_file`. -/
def delete_file (dev_mode : Bool) (remote_filename : List Char) : TransportAction :=
  if dev_mode then .reject devModeError
  else if basename remote_filename = [] ∨ (basename remote_filename).head? = some '.' then
    .reject invalidFilenameError
  else .connect (some (basename remote_filename))

/-- `os.path.normpath` (POSIX), transcribed from `posixpath.normpath`. -/
def normpath (path : List Char) : List Char :=
  if path = [] then ['.']
  else
    (fun initialSlashes =>
      (fun newComps =>
        (fun joined => if joined = [] then ['.'] else joined)
          (List.replicate initialSlashes '/' ++ List.intercalate ['/'] newComps))
        ((path.splitOn '/').foldl (fun acc comp =>
          if comp = [] ∨ comp = ['.'] then acc
          else if comp ≠ ['.', '.'] ∨ (initialSlashes = 0 ∧ acc = []) ∨
              (acc ≠ [] ∧ acc.getLast? = some ['.', '.']) then acc ++ [comp]
          else acc.dropLast) []))
      (if path.take 2 = ['/', '/'] ∧ path.take 3 ≠ ['/', '/', '/'] then 2
        else if path.head? = some '/' then 1 else 0)

/-- `SFTPManager.list_files`: dev-mode check; a truthy directory argument is
normalized and rejected if the normalization contains `..` or starts with
`/`; otherwise the operation proceeds with the original argument. -/
def list_files (dev_mode : Bool) (remote_directory : Option (List Char)) : TransportAction :=
  if dev_mode then .reject devModeError
  else
    match remote_directory with
    | none => .connect none
    | some d =>
      if d = [] then .connect (some d)
      else if ['.', '.'] <:+: normpath d ∨ (normpath d).head? = some '/' then
        .reject invalidDirectoryError
      else .connect (some d)

/-- `SFTPManager.test_connection`: dev-mode check, then connect. -/
def test_connection (dev_mode : Bool) : TransportAction :=
  if dev_mode then .reject devModeError
  else .connect none

/-- A remote name with both a separator and a `..` segment. -/
def traversalName : List Char := "../secret.txt".data

def sanitizedName : List Char := "secret.txt".data

def slashedName : List Char := "a/b".data

def slashedBasename : List Char := "b".data

/-- Claim C5: when the transport is constructed in disabled (development)
mode, every one of the five operations — put, get, list, delete and
testConnection — returns a typed, descriptive failure result and performs
zero network calls (the `reject` outcome is produced before any
`_get_sftp_connection()` call). -/
theorem C5_dev_mode_rejects_all (n : List Char) (d : Option (List Char)) :
    upload_file true n = .reject devModeError ∧
    download_file true n = .reject devModeError ∧
    list_files true d = .reject devModeError ∧
    delete_file true n = .reject devModeError ∧
    test_connection true = .reject devModeError :=
  ⟨rfl, rfl, rfl, rfl, rfl⟩

/-- Claim C4 is false as stated: the remote name `../secret.txt` contains a
directory separator and a `..` segment, yet none of put/get/delete rejects
it — each strips it to its basename `secret.txt` (an altered form of the
name) and proceeds to open a connection with it. -/
theorem C4_counterexample :
    upload_file false traversalName = .connect (some sanitizedName) ∧
    download_file false traversalName = .connect (some sanitizedName) ∧
    delete_file false traversalName = .connect (some sanitizedName) := by
  decide

/-- Claim C4 as amended: put, get and delete reject — without any connection
attempt — exactly those remote names whose basename is empty or begins with a
dot; every other name (including names with separators, `..` segments or an
absolute prefix) is sanitized to its basename and the operation proceeds over
the network with that sanitized name. -/
theorem C4_sanitize_amended (name : List Char) :
    (upload_file false name = .reject invalidFilenameError ↔
      basename name = [] ∨ (basename name).head? = some '.') ∧
    (¬(basename name = [] ∨ (basename name).head? = some '.') →
      upload_file false name = .connect (some (basename name))) ∧
    (download_file false name = .reject invalidFilenameError ↔
      basename name = [] ∨ (basename name).head? = some '.') ∧
    (¬(basename name = [] ∨ (basename name).head? = some '.') →
      download_file false name = .connect (some (basename name))) ∧
    (delete_file false name = .reject invalidFilenameError ↔
      basename name = [] ∨ (basename name).head? = some '.') ∧
    (¬(basename name = [] ∨ (basename name).head? = some '.') →
      delete_file false name = .connect (some (basename name))) := by
  have hu : upload_file false name =
      if basename name = [] ∨ (basename name).head? = some '.'
      then TransportAction.reject invalidFilenameError
      else .connect (some (basename name)) := rfl
  have hd : download_file false name =
      if basename name = [] ∨ (basename name).head? = some '.'
      then TransportAction.reject invalidFilenameError
      else .connect (some (basename name)) := rfl
  have hdel : delete_file false name =
      if basename name = [] ∨ (basename name).head? = some '.'
      then TransportAction.reject invalidFilenameError
      else .connect (some (basename name)) := rfl
  by_cases h : basename name = [] ∨ (basename name).head? = some '.'
  · rw [hu, hd, hdel, if_pos h]
    exact ⟨⟨fun _ => h, fun _ => rfl⟩, fun hn => absurd h hn,
      ⟨fun _ => h, fun _ => rfl⟩, fun hn => absurd h hn,
      ⟨fun _ => h, fun _ => rfl⟩, fun hn => absurd h hn⟩
  · rw [hu, hd, hdel, if_neg h]
    exact ⟨⟨fun hc => absurd hc (by simp), fun hc => absurd hc h⟩, fun _ => rfl,
      ⟨fun hc => absurd hc (by simp), fun hc => absurd hc h⟩, fun _ => rfl,
      ⟨fun hc => absurd hc (by simp), fun hc => absurd hc h⟩, fun _ => rfl⟩

/-- Witness for the amended C4: `a/b` is sanitized to `b` and the upload
proceeds with the sanitized name. -/
theorem C4_sanitize_amended_witness :
    upload_file false slashedName = .connect (some slashedBasename) :=
  (C4_sanitize_amended slashedName).2.1 (by decide)

/-! ## `SFTPManager.__init__` (src/ftp-ext/sftp_client.py, lines 10-30) -/

structure SFTPConfig where
  host : Option (List Char)
  username : Option (List Char)
  password : Option (List Char)
  dev_mode : Bool
deriving DecidableEq

/-- Python truthiness of an optional environment string: `None` and the empty
string are falsy. -/
def pyTruthy : Option (List Char) → Bool
  | none => false
  | some s => !s.isEmpty

def toLowerStr (s : List Char) : List Char := s.map Char.toLower

def trueStr : List Char := "true".data

def falseStr : List Char := "false".data

/-- `os.getenv('SFTP_DEV_MODE', 'false').lower() == 'true'`. -/
def parse_dev_mode (devModeEnv : Option (List Char)) : Bool :=
  toLowerStr (devModeEnv.getD falseStr) == trueStr

def configErrMsg : List Char :=
  ("SFTP configuration required: Set SFTP_HOST, SFTP_USERNAME, and SFTP_PASSWORD " ++
   "environment variables. For security, no default credentials are provided. " ++
   "For development/testing, set SFTP_DEV_MODE=true to disable SFTP operations.").data

/-- `SFTPManager.__init__`: reads host/username/password and the dev-mode
flag from the environment; if any credential is falsy and dev mode is off,
construction raises `ValueError` (modelled as `.error`). -/
def sftpManager_init (host username password devModeEnv : Option (List Char)) :
    Except (List Char) SFTPConfig :=
  if !pyTruthy host || !pyTruthy username || !pyTruthy password then
    if !parse_dev_mode devModeEnv then .error configErrMsg
    else .ok ⟨host, username, password, parse_dev_mode devModeEnv⟩
  else .ok ⟨host, username, password, parse_dev_mode devModeEnv⟩

/-- Claim C8: if any of host, username or credential is absent (or empty)
and disabled mode is not enabled, constructing the transport fails with a
configuration error; it never silently succeeds. -/
theorem C8_missing_config_fatal (host username password devModeEnv : Option (List Char))
    (hmiss : pyTruthy host = false ∨ pyTruthy username = false ∨ pyTruthy password = false)
    (hdev : parse_dev_mode devModeEnv = false) :
    sftpManager_init host username password devModeEnv = .error configErrMsg := by
  rcases hmiss with h | h | h <;> simp [sftpManager_init, h, hdev]

/-- Witness for C8: no host configured, dev mode unset. -/
theorem C8_witness :
    sftpManager_init none (some ['u']) (some ['p']) none = .error configErrMsg :=
  C8_missing_config_fatal none (some ['u']) (some ['p']) none (Or.inl (by decide)) (by decide)

/-! ## The upload handler's compression ratio (src/ftp-ext/server.py, line 265)

`round((1 - compressed_size / original_size) * 100, 2) if original_size > 0
else 0`.  Python's `round` rounds half to even; the arithmetic is modelled
exactly over `ℚ`. -/

/-- Round half to even, as Python's builtin `round` does. -/
def roundHalfEven (q : ℚ) : ℤ :=
  if q - q.floor < 1 / 2 then q.floor
  else if 1 / 2 < q - q.floor then q.floor + 1
  else if q.floor % 2 = 0 then q.floor else q.floor + 1

/-- Python `round(x, 2)`. -/
def pyRound2 (q : ℚ) : ℚ := (roundHalfEven (q * 100) : ℚ) / 100

/-- The `compression_ratio` entry of `transfer_data` in the upload handler. -/
def compression_ratio (original_size compressed_size : Nat) : ℚ :=
  if original_size > 0 then
    pyRound2 ((1 - (compressed_size : ℚ) / (original_size : ℚ)) * 100)
  else 0

/-- Claim C7: the reported compression ratio equals
`round((1 - compressedSize/originalSize) * 100, 2)` whenever
`originalSize > 0`, and equals `0` whenever `originalSize = 0`; the
computation is total (no division-by-zero error is possible, including for an
empty file). -/
theorem C7_compression_ratio (original_size compressed_size : Nat) :
    compression_ratio 0 compressed_size = 0 ∧
    (0 < original_size → compression_ratio original_size compressed_size =
      pyRound2 ((1 - (compressed_size : ℚ) / (original_size : ℚ)) * 100)) := by
  constructor
  · rfl
  · intro h
    rw [compression_ratio, if_pos h]

/-- Witness for C7: a 4-byte file compressed to 1 byte reports a ratio of
75 (percent), and an empty file reports 0. -/
theorem C7_witness :
    compression_ratio 0 7 = 0 ∧
    compression_ratio 4 1 = pyRound2 ((1 - (1 : ℚ) / (4 : ℚ)) * 100) :=
  ⟨(C7_compression_ratio 0 7).1, (C7_compression_ratio 4 1).2 (by decide)⟩

/-! ## `AESCipher.__init__` (src/ftp-ext/encryption.py, lines 11-26)

On the environment path (`password=None`): if `ENCRYPTION_KEY` is set, it is
urlsafe-base64 decoded; only a raised decoding error triggers the fallback to
a fresh random key.  The resulting `self.key` is then handed to `Fernet()`,
which itself urlsafe-base64 decodes it and requires exactly 32 decoded bytes,
raising `ValueError` otherwise.  The fresh key `Fernet.generate_key()` would
draw is passed explicitly (it is the base64 text of 32 random bytes). -/

/-- `Fernet.__init__` key validation. -/
def fernetKeyCheck (key : List Nat) : Option (List Nat) :=
  match b64decode key with
  | none => none
  | some k => if k.length = 32 then some k else none

/-- The tail of `AESCipher.__init__`: store the chosen key and construct
`Fernet(self.key)`; returns the stored key, or `none` when `Fernet` raises. -/
def finishInit (key : List Nat) : Option (List Nat) :=
  if (fernetKeyCheck key).isSome then some key else none

/-- `AESCipher.__init__` with `password=None`: the `ENCRYPTION_KEY`
environment value (if any) and the fresh random key are explicit inputs. -/
def aesCipher_init (encKeyEnv : Option (List Char)) (freshKey : List Nat) :
    Option (List Nat) :=
  match encKeyEnv with
  | none => finishInit freshKey
  | some kb =>
    match b64decode (utf8Enc kb) with
    | some k => finishInit k
    | none => finishInit freshKey

/-- Claim C9 is false as stated: the configured key `????` is not valid
base64, yet `urlsafe_b64decode` does not raise on it — it discards the four
invalid characters and returns the empty byte string — so no fallback to a
fresh key happens; instead `Fernet(b"")` raises `ValueError` and construction
fails, rather than silently proceeding with a random key. -/
theorem C9_counterexample :
    b64decode (utf8Enc ['?', '?', '?', '?']) = some [] ∧
    aesCipher_init (some ['?', '?', '?', '?']) (b64encode (List.replicate 32 0)) = none := by
  decide

/-- Claim C9 as amended: when decoding the configured `ENCRYPTION_KEY` raises
an error (for example on incorrect padding), construction does silently fall
back to the fresh random key and succeeds; but malformed keys whose lenient
decoding succeeds with bytes of the wrong shape make construction fail in the
`Fernet` constructor instead. -/
theorem C9_fallback_amended (kb : List Char) (r : List Nat)
    (hdec : b64decode (utf8Enc kb) = none) (hr : r.length = 32) (hrb : IsBytes r) :
    aesCipher_init (some kb) (b64encode r) = some (b64encode r) := by
  have hk : fernetKeyCheck (b64encode r) = some r := by
    rw [fernetKeyCheck, b64decode_b64encode r hrb]
    simp [hr]
  have hf : finishInit (b64encode r) = some (b64encode r) := by
    rw [finishInit, hk]
    rfl
  rw [aesCipher_init, hdec]
  exact hf

/-- Witness for the amended C9: the key `abc` (three base64 characters, an
invalid length) makes decoding raise, and construction silently succeeds with
the fresh random key. -/
theorem C9_fallback_amended_witness :
    aesCipher_init (some ['a', 'b', 'c']) (b64encode (List.replicate 32 0)) =
      some (b64encode (List.replicate 32 0)) :=
  C9_fallback_amended ['a', 'b', 'c'] (List.replicate 32 0) (by decide) (by decide) (by decide)

/-! ## `FileEncryptionManager` (src/ftp-ext/encryption.py, lines 149-215)

`encrypt_with_metadata` serializes the metadata dict with Python `str()` —
the built-in `repr` of a dict of strings, an int and a nested dict of strings
— UTF-8 encodes it, prefixes its byte length as a 4-byte big-endian integer,
appends the payload and encrypts the concatenation.
`decrypt_with_metadata` decrypts, reads the length prefix, slices out the
metadata bytes and hands their decoded text to `eval()`.  Here `eval` is
modelled by a parser of exactly the data literals the serializer emits
(claim C3 separately records that the real `eval` is an unrestricted
evaluator, not a pure-data parser).

`repr` of a string is modelled faithfully for the ASCII range (quote
selection between `'` and `"`, escapes for the backslash, the quote, newline,
carriage return, tab, and `\xHH` for remaining control characters); CPython
additionally escapes non-printable characters above U+007F, which this model
leaves literal — an escaping choice that `eval` undoes either way, so no
round-trip statement is affected. -/

def backslashCh : Char := Char.ofNat 92

def squoteCh : Char := Char.ofNat 39

def dquoteCh : Char := Char.ofNat 34

def nlCh : Char := Char.ofNat 10

def crCh : Char := Char.ofNat 13

def tabCh : Char := Char.ofNat 9

def lbraceCh : Char := Char.ofNat 123

def rbraceCh : Char := Char.ofNat 125

/-- Lowercase hex digit, as CPython uses in `\xHH` escapes. -/
def hexDigitChar (n : Nat) : Char :=
  if n < 10 then Char.ofNat (48 + n) else Char.ofNat (87 + n)

/-- The `repr` rendering of one character of a string quoted with `q`. -/
def reprChar (q c : Char) : List Char :=
  if c = backslashCh then [backslashCh, backslashCh]
  else if c = q then [backslashCh, q]
  else if c = nlCh then [backslashCh, 'n']
  else if c = crCh then [backslashCh, 'r']
  else if c = tabCh then [backslashCh, 't']
  else if c.toNat < 32 ∨ c.toNat = 127 then
    [backslashCh, 'x', hexDigitChar (c.toNat / 16), hexDigitChar (c.toNat % 16)]
  else [c]

/-- CPython's quote selection: a single quote unless the string contains one
and contains no double quote. -/
def strQuote (s : List Char) : Char :=
  if s.contains squoteCh && !(s.contains dquoteCh) then dquoteCh else squoteCh

def reprBody (q : Char) (s : List Char) : List Char := (s.map (reprChar q)).flatten

/-- Python `repr` of a string. -/
def reprStr (s : List Char) : List Char :=
  strQuote s :: reprBody (strQuote s) s ++ [strQuote s]

def digitChar (n : Nat) : Char := Char.ofNat (48 + n)

/-- Decimal digits of a natural number (`repr` of a Python int ≥ 0);
fuel-based, one digit per unit of fuel. -/
def natStrCore : Nat → Nat → List Char
  | 0, n => [digitChar (n % 10)]
  | fuel + 1, n =>
    if n < 10 then [digitChar n] else natStrCore fuel (n / 10) ++ [digitChar (n % 10)]

def natStr (n : Nat) : List Char := natStrCore n n

def sepColon : List Char := [':', ' ']

def sepComma : List Char := [',', ' ']

/-- `repr` of the entries of a dict of strings, with the closing brace. -/
def reprEntriesStr : List (List Char × List Char) → List Char
  | [] => [rbraceCh]
  | [(k, v)] => reprStr k ++ sepColon ++ reprStr v ++ [rbraceCh]
  | (k, v) :: e :: es => reprStr k ++ sepColon ++ reprStr v ++ sepComma ++ reprEntriesStr (e :: es)

/-- `repr` of a dict of strings. -/
def reprFlatDict (m : List (List Char × List Char)) : List Char :=
  lbraceCh :: reprEntriesStr m

/-- The `file_metadata` dict built by `encrypt_with_metadata`:
`{'filename': ..., 'size': ..., 'encrypted_at': ..., 'metadata': {...}}`
(`encrypted_at` holds the `os.urandom(16).hex()` uniqueness token, which is
an explicit input of the model). -/
structure FileMeta where
  filename : List Char
  size : Nat
  encrypted_at : List Char
  metadata : List (List Char × List Char)
deriving DecidableEq

def filenameKey : List Char := "filename".data

def sizeKey : List Char := "size".data

def encryptedAtKey : List Char := "encrypted_at".data

def metadataKey : List Char := "metadata".data

/-- Python `str(file_metadata)`. -/
def reprFileMeta (fm : FileMeta) : List Char :=
  lbraceCh :: (reprStr filenameKey ++ sepColon ++ reprStr fm.filename ++ sepComma ++
    reprStr sizeKey ++ sepColon ++ natStr fm.size ++ sepComma ++
    reprStr encryptedAtKey ++ sepColon ++ reprStr fm.encrypted_at ++ sepComma ++
    reprStr metadataKey ++ sepColon ++ reprFlatDict fm.metadata) ++ [rbraceCh]

/-! ### The data-literal parser modelling `eval` on serializer output -/

def parseExact : List Char → List Char → Option (List Char)
  | [], input => some input
  | _ :: _, [] => none
  | p :: ps, c :: cs => if c = p then parseExact ps cs else none

def hexVal (c : Char) : Option Nat :=
  if 48 ≤ c.toNat ∧ c.toNat ≤ 57 then some (c.toNat - 48)
  else if 97 ≤ c.toNat ∧ c.toNat ≤ 102 then some (c.toNat - 87)
  else if 65 ≤ c.toNat ∧ c.toNat ≤ 70 then some (c.toNat - 55)
  else none

def unescapeChar (e : Char) : Option Char :=
  if e = backslashCh then some backslashCh
  else if e = squoteCh then some squoteCh
  else if e = dquoteCh then some dquoteCh
  else if e = 'n' then some nlCh
  else if e = 'r' then some crCh
  else if e = 't' then some tabCh
  else none

inductive StrMode
  | norm
  | esc
  | hex0
  | hex1 (v : Nat)
deriving DecidableEq

/-- String-literal body parser: a state machine over the input characters
(normal, after a backslash, and the two `\xHH` hex positions). -/
def parseStrBody (q : Char) : StrMode → List Char → List Char → Option (List Char × List Char)
  | _, _, [] => none
  | .norm, acc, c :: rest =>
    if c = q then some (acc.reverse, rest)
    else if c = backslashCh then parseStrBody q .esc acc rest
    else parseStrBody q .norm (c :: acc) rest
  | .esc, acc, c :: rest =>
    if c = 'x' then parseStrBody q .hex0 acc rest
    else
      match unescapeChar c with
      | some ch => parseStrBody q .norm (ch :: acc) rest
      | none => none
  | .hex0, acc, c :: rest =>
    match hexVal c with
    | some v => parseStrBody q (.hex1 v) acc rest
    | none => none
  | .hex1 v, acc, c :: rest =>
    match hexVal c with
    | some w => parseStrBody q .norm (Char.ofNat (16 * v + w) :: acc) rest
    | none => none

def parseStrLit : List Char → Option (List Char × List Char)
  | [] => none
  | c :: rest =>
    if c = squoteCh ∨ c = dquoteCh then parseStrBody c .norm [] rest
    else none

def isDigitCh (c : Char) : Bool := 48 ≤ c.toNat && c.toNat ≤ 57

def parseNatAux : Nat → List Char → Nat × List Char
  | acc, [] => (acc, [])
  | acc, c :: rest =>
    if isDigitCh c then parseNatAux (10 * acc + (c.toNat - 48)) rest else (acc, c :: rest)

def parseNat : List Char → Option (Nat × List Char)
  | [] => none
  | c :: rest =>
    if isDigitCh c then some (parseNatAux (c.toNat - 48) rest) else none

/-- One or more `'k': 'v'` entries followed by the closing brace. -/
def parseEntriesAux : Nat → List Char → Option (List (List Char × List Char) × List Char)
  | 0, _ => none
  | fuel + 1, input =>
    (parseStrLit input).bind fun kv =>
    (parseExact sepColon kv.2).bind fun r2 =>
    (parseStrLit r2).bind fun vv =>
    if vv.2.head? = some rbraceCh then some ([(kv.1, vv.1)], vv.2.tail)
    else
      (parseExact sepComma vv.2).bind fun r4 =>
      (parseEntriesAux fuel r4).map fun ev => ((kv.1, vv.1) :: ev.1, ev.2)

def parseFlatDict (input : List Char) : Option (List (List Char × List Char) × List Char) :=
  if input.head? = some lbraceCh then
    if input.tail.head? = some rbraceCh then some ([], input.tail.tail)
    else parseEntriesAux input.tail.length input.tail
  else none

/-- Parse a quoted key and require it to be `key`, then `': '`. -/
def parseKeyed (key : List Char) (input : List Char) : Option (List Char) :=
  (parseStrLit input).bind fun kv =>
    if kv.1 = key then parseExact sepColon kv.2 else none

/-- The `eval` of `decrypt_with_metadata`, modelled as a parser of exactly
the dict literals `str(file_metadata)` produces. -/
def parseFileMeta (input : List Char) : Option FileMeta :=
  (parseExact [lbraceCh] input).bind fun r0 =>
  (parseKeyed filenameKey r0).bind fun r1 =>
  (parseStrLit r1).bind fun fv =>
  (parseExact sepComma fv.2).bind fun r2 =>
  (parseKeyed sizeKey r2).bind fun r3 =>
  (parseNat r3).bind fun nv =>
  (parseExact sepComma nv.2).bind fun r4 =>
  (parseKeyed encryptedAtKey r4).bind fun r5 =>
  (parseStrLit r5).bind fun tv =>
  (parseExact sepComma tv.2).bind fun r6 =>
  (parseKeyed metadataKey r6).bind fun r7 =>
  (parseFlatDict r7).bind fun mv =>
  if mv.2 = [rbraceCh] then some ⟨fv.1, nv.1, tv.1, mv.1⟩ else none

/-! ### The envelope itself -/

/-- `len(metadata_json).to_bytes(4, byteorder='big')`; raises `OverflowError`
above `2^32 - 1` (caught by `encrypt_with_metadata`, which then reports
failure). -/
def toBytes4 (n : Nat) : Option (List Nat) :=
  if n < 4294967296 then
    some [n / 16777216 % 256, n / 65536 % 256, n / 256 % 256, n % 256]
  else none

/-- `int.from_bytes(-, byteorder='big')`. -/
def fromBytesBE (l : List Nat) : Nat := l.foldl (fun a b => 256 * a + b) 0

/-- `FileEncryptionManager.encrypt_with_metadata` (per-call randomness — the
Fernet timestamp and iv, and the `encrypted_at` hex token — explicit). -/
def encrypt_with_metadata (encB hmacF : List Nat → List Nat) (ts : Nat) (iv : List Nat)
    (data : List Nat) (filename : List Char) (metadata : List (List Char × List Char))
    (tok : List Char) : Option (List Nat) :=
  (toBytes4 (utf8Enc (reprFileMeta ⟨filename, data.length, tok, metadata⟩)).length).map
    fun len4 => fernetEncrypt encB hmacF ts iv
      (len4 ++ utf8Enc (reprFileMeta ⟨filename, data.length, tok, metadata⟩) ++ data)

/-- `FileEncryptionManager.decrypt_with_metadata`: decrypt, read the 4-byte
length prefix, slice out and parse the metadata, return the remaining bytes
as the payload. -/
def decrypt_with_metadata (decB hmacF : List Nat → List Nat) (c : List Nat) :
    Option (List Nat × FileMeta) :=
  (fernetDecrypt decB hmacF c).bind fun comb =>
  (utf8Dec ((comb.drop 4).take (fromBytesBE (comb.take 4)))).bind fun s =>
  (parseFileMeta s).map fun fm =>
  (comb.drop (4 + fromBytesBE (comb.take 4)), fm)

/-! ### Round-trip lemmas for the serializer and its parser -/

theorem parseExact_append : ∀ (pat rest : List Char), parseExact pat (pat ++ rest) = some rest
  | [], rest => rfl
  | p :: ps, rest => by
    rw [List.cons_append, parseExact, if_pos rfl]
    exact parseExact_append ps rest

theorem strQuote_cases (s : List Char) : strQuote s = squoteCh ∨ strQuote s = dquoteCh := by
  rw [strQuote]
  split
  · right; rfl
  · left; rfl

theorem parseStrBody_norm_quote (q : Char) (acc rest : List Char) :
    parseStrBody q .norm acc (q :: rest) = some (acc.reverse, rest) := by
  rw [parseStrBody, if_pos rfl]

theorem parseStrBody_norm_bs (q : Char) (hq : ¬backslashCh = q) (acc rest : List Char) :
    parseStrBody q .norm acc (backslashCh :: rest) = parseStrBody q .esc acc rest := by
  rw [parseStrBody, if_neg hq, if_pos rfl]

theorem parseStrBody_norm_lit (q c : Char) (hcq : ¬c = q) (hcb : ¬c = backslashCh)
    (acc rest : List Char) :
    parseStrBody q .norm acc (c :: rest) = parseStrBody q .norm (c :: acc) rest := by
  rw [parseStrBody, if_neg hcq, if_neg hcb]

theorem parseStrBody_esc_step (q e ch : Char) (acc rest : List Char) (he : ¬e = 'x')
    (hu : unescapeChar e = some ch) :
    parseStrBody q .esc acc (e :: rest) = parseStrBody q .norm (ch :: acc) rest := by
  rw [parseStrBody, if_neg he, hu]

theorem parseStrBody_esc_x (q : Char) (acc rest : List Char) :
    parseStrBody q .esc acc ('x' :: rest) = parseStrBody q .hex0 acc rest := by
  rw [parseStrBody, if_pos rfl]

theorem parseStrBody_hex0 (q c : Char) (v : Nat) (acc rest : List Char)
    (hv : hexVal c = some v) :
    parseStrBody q .hex0 acc (c :: rest) = parseStrBody q (.hex1 v) acc rest := by
  rw [parseStrBody, hv]

theorem parseStrBody_hex1 (q c : Char) (v w : Nat) (acc rest : List Char)
    (hw : hexVal c = some w) :
    parseStrBody q (.hex1 v) acc (c :: rest) =
      parseStrBody q .norm (Char.ofNat (16 * v + w) :: acc) rest := by
  rw [parseStrBody, hw]

theorem hexVal_hexDigitChar : ∀ n : Fin 16, hexVal (hexDigitChar n.val) = some n.val := by
  decide

/-- The string-body parser inverts the per-character `repr` escaping. -/
theorem parseStrBody_reprBody (q : Char) (hq : q = squoteCh ∨ q = dquoteCh) (s : List Char) :
    ∀ acc rest, parseStrBody q .norm acc (reprBody q s ++ (q :: rest)) =
      some (acc.reverse ++ s, rest) := by
  have hqb : ¬backslashCh = q := by rcases hq with h | h <;> subst h <;> decide
  induction s with
  | nil =>
    intro acc rest
    rw [reprBody, List.map_nil, List.flatten_nil, List.nil_append, parseStrBody_norm_quote]
    simp
  | cons c s ih =>
    intro acc rest
    have hb : reprBody q (c :: s) = reprChar q c ++ reprBody q s := by
      rw [reprBody, List.map_cons, List.flatten_cons, reprBody]
    rw [hb, List.append_assoc, reprChar]
    by_cases h1 : c = backslashCh
    · rw [if_pos h1]
      subst h1
      rw [List.cons_append, List.cons_append, List.nil_append]
      rw [parseStrBody_norm_bs q hqb]
      rw [parseStrBody_esc_step q backslashCh backslashCh _ _ (by decide) (by decide)]
      rw [ih]
      simp
    · rw [if_neg h1]
      by_cases h2 : c = q
      · rw [if_pos h2, h2]
        rw [List.cons_append, List.cons_append, List.nil_append]
        rw [parseStrBody_norm_bs q hqb]
        rw [parseStrBody_esc_step q q q _ _ (by rcases hq with h | h <;> subst h <;> decide)
          (by rcases hq with h | h <;> subst h <;> decide)]
        rw [ih]
        simp
      · rw [if_neg h2]
        by_cases h3 : c = nlCh
        · rw [if_pos h3]
          subst h3
          rw [List.cons_append, List.cons_append, List.nil_append]
          rw [parseStrBody_norm_bs q hqb]
          rw [parseStrBody_esc_step q 'n' nlCh _ _ (by decide) (by decide)]
          rw [ih]
          simp
        · rw [if_neg h3]
          by_cases h4 : c = crCh
          · rw [if_pos h4]
            subst h4
            rw [List.cons_append, List.cons_append, List.nil_append]
            rw [parseStrBody_norm_bs q hqb]
            rw [parseStrBody_esc_step q 'r' crCh _ _ (by decide) (by decide)]
            rw [ih]
            simp
          · rw [if_neg h4]
            by_cases h5 : c = tabCh
            · rw [if_pos h5]
              subst h5
              rw [List.cons_append, List.cons_append, List.nil_append]
              rw [parseStrBody_norm_bs q hqb]
              rw [parseStrBody_esc_step q 't' tabCh _ _ (by decide) (by decide)]
              rw [ih]
              simp
            · rw [if_neg h5]
              by_cases h6 : c.toNat < 32 ∨ c.toNat = 127
              · rw [if_pos h6]
                rw [List.cons_append, List.cons_append, List.cons_append, List.cons_append,
                  List.nil_append]
                rw [parseStrBody_norm_bs q hqb]
                rw [parseStrBody_esc_x]
                rw [parseStrBody_hex0 q _ (c.toNat / 16) _ _
                  (hexVal_hexDigitChar ⟨c.toNat / 16, by omega⟩)]
                rw [parseStrBody_hex1 q _ (c.toNat / 16) (c.toNat % 16) _ _
                  (hexVal_hexDigitChar ⟨c.toNat % 16, by omega⟩)]
                rw [show 16 * (c.toNat / 16) + c.toNat % 16 = c.toNat by omega]
                rw [Char.ofNat_toNat, ih]
                simp
              · rw [if_neg h6]
                rw [List.cons_append, List.nil_append]
                rw [parseStrBody_norm_lit q c h2 h1]
                rw [ih]
                simp

/-- `parseStrLit` inverts `repr` of a string. -/
theorem parseStrLit_reprStr (s rest : List Char) :
    parseStrLit (reprStr s ++ rest) = some (s, rest) := by
  have hq := strQuote_cases s
  rw [reprStr, List.cons_append, List.cons_append, List.append_assoc, List.singleton_append]
  rw [parseStrLit, if_pos hq]
  rw [parseStrBody_reprBody _ hq]
  simp

def valDigits (ds : List Char) : Nat := ds.foldl (fun a c => 10 * a + (c.toNat - 48)) 0

theorem digitChar_facts : ∀ n : Fin 10,
    (digitChar n.val).toNat = 48 + n.val ∧ isDigitCh (digitChar n.val) = true := by
  decide

theorem digitChar_toNat {n : Nat} (h : n < 10) : (digitChar n).toNat = 48 + n :=
  (digitChar_facts ⟨n, h⟩).1

theorem digitChar_isDigit {n : Nat} (h : n < 10) : isDigitCh (digitChar n) = true :=
  (digitChar_facts ⟨n, h⟩).2

theorem natStrCore_spec : ∀ (fuel n : Nat), n < 10 ^ (fuel + 1) →
    natStrCore fuel n ≠ [] ∧ (∀ c ∈ natStrCore fuel n, isDigitCh c = true) ∧
    valDigits (natStrCore fuel n) = n := by
  intro fuel
  induction fuel with
  | zero =>
    intro n hn
    have h10 : n < 10 := by
      have : (10 : Nat) ^ 1 = 10 := rfl
      omega
    have ht := digitChar_toNat (show n % 10 < 10 by omega)
    have hd := digitChar_isDigit (show n % 10 < 10 by omega)
    refine ⟨by simp [natStrCore], ?_, ?_⟩
    · intro c hc
      rw [natStrCore] at hc
      rcases List.mem_singleton.mp hc with rfl
      exact hd
    · rw [natStrCore, valDigits, List.foldl_cons, List.foldl_nil, ht]
      omega
  | succ fuel ih =>
    intro n hn
    rw [natStrCore]
    by_cases h : n < 10
    · rw [if_pos h]
      have ht := digitChar_toNat h
      have hd := digitChar_isDigit h
      refine ⟨by simp, ?_, ?_⟩
      · intro c hc
        rcases List.mem_singleton.mp hc with rfl
        exact hd
      · rw [valDigits, List.foldl_cons, List.foldl_nil, ht]
        omega
    · rw [if_neg h]
      have hdiv : n / 10 < 10 ^ (fuel + 1) := by
        have hp : (10 : Nat) ^ (fuel + 1 + 1) = 10 ^ (fuel + 1) * 10 := by ring
        rw [hp] at hn
        omega
      obtain ⟨hne, hdig, hval⟩ := ih (n / 10) hdiv
      have ht := digitChar_toNat (show n % 10 < 10 by omega)
      have hd := digitChar_isDigit (show n % 10 < 10 by omega)
      refine ⟨by simp, ?_, ?_⟩
      · intro c hc
        rcases List.mem_append.mp hc with hc | hc
        · exact hdig c hc
        · rcases List.mem_singleton.mp hc with rfl
          exact hd
      · rw [valDigits, List.foldl_append, List.foldl_cons, List.foldl_nil]
        rw [valDigits] at hval
        rw [hval, ht]
        omega

theorem parseNatAux_digits : ∀ (ds : List Char) (acc : Nat) (rest : List Char),
    (∀ c ∈ ds, isDigitCh c = true) →
    (∀ c, rest.head? = some c → isDigitCh c = false) →
    parseNatAux acc (ds ++ rest) = (ds.foldl (fun a c => 10 * a + (c.toNat - 48)) acc, rest) := by
  intro ds
  induction ds with
  | nil =>
    intro acc rest _ hr
    cases rest with
    | nil => rfl
    | cons c r =>
      rw [List.nil_append, parseNatAux, if_neg (by rw [hr c rfl]; simp), List.foldl_nil]
  | cons d ds ih =>
    intro acc rest hd hr
    rw [List.cons_append, parseNatAux, if_pos (hd d (by simp)), List.foldl_cons]
    exact ih _ rest (fun c hc => hd c (by simp [hc])) hr

/-- `parseNat` inverts the decimal rendering, up to a non-digit boundary. -/
theorem parseNat_natStr (n : Nat) (rest : List Char)
    (hr : ∀ c, rest.head? = some c → isDigitCh c = false) :
    parseNat (natStr n ++ rest) = some (n, rest) := by
  have hn : n < 10 ^ (n + 1) :=
    lt_of_lt_of_le (Nat.lt_pow_self (by norm_num) n)
      (Nat.pow_le_pow_right (by norm_num) (by omega))
  obtain ⟨hne, hdig, hval⟩ := natStrCore_spec n n hn
  rw [natStr]
  cases hds : natStrCore n n with
  | nil => exact absurd hds hne
  | cons d ds =>
    rw [hds] at hdig hval
    rw [List.cons_append, parseNat, if_pos (hdig d (by simp))]
    rw [parseNatAux_digits ds _ rest (fun c hc => hdig c (by simp [hc])) hr]
    rw [valDigits, List.foldl_cons] at hval
    rw [show 10 * 0 + (d.toNat - 48) = d.toNat - 48 by omega] at hval
    rw [hval]

theorem head?_sepComma_append (X : List Char) : (sepComma ++ X).head? = some ',' := rfl

/-- `reprStr` is never empty and starts with a quote character. -/
theorem reprStr_cons (s : List Char) :
    reprStr s = strQuote s :: (reprBody (strQuote s) s ++ [strQuote s]) := by
  rw [reprStr, List.cons_append]

theorem reprEntriesStr_length_ge : ∀ m : List (List Char × List Char),
    m.length ≤ (reprEntriesStr m).length := by
  intro m
  induction m using reprEntriesStr.induct with
  | case1 => simp [reprEntriesStr]
  | case2 k v =>
    rw [reprEntriesStr, reprStr_cons]
    simp
  | case3 k v e es ih =>
    rw [reprEntriesStr, reprStr_cons]
    simp only [List.length_append, List.length_cons]
    simp only [List.length_cons] at ih ⊢
    omega

theorem some_rbrace_ne_comma : ¬(some ',' = some rbraceCh) := by decide

/-- The entries parser inverts the entries serializer (nonempty case). -/
theorem parseEntriesAux_repr : ∀ (m : List (List Char × List Char)), m ≠ [] →
    ∀ (rest : List Char) (fuel : Nat), m.length ≤ fuel →
    parseEntriesAux fuel (reprEntriesStr m ++ rest) = some (m, rest) := by
  intro m
  induction m using reprEntriesStr.induct with
  | case1 => intro h; exact absurd rfl h
  | case2 k v =>
    intro _ rest fuel hfuel
    cases fuel with
    | zero => simp at hfuel
    | succ fuel =>
      rw [reprEntriesStr, parseEntriesAux]
      simp only [List.append_assoc]
      simp only [parseStrLit_reprStr, Option.some_bind, parseExact_append,
        List.singleton_append, List.head?_cons, List.tail_cons]
      simp
  | case3 k v e es ih =>
    intro _ rest fuel hfuel
    cases fuel with
    | zero => simp at hfuel
    | succ fuel =>
      rw [reprEntriesStr, parseEntriesAux]
      simp only [List.append_assoc, parseStrLit_reprStr, Option.some_bind, parseExact_append]
      rw [if_neg (by rw [head?_sepComma_append]; exact some_rbrace_ne_comma)]
      rw [ih (by simp) rest fuel (by simp at hfuel ⊢; omega)]
      rfl

/-- The dict parser inverts the dict serializer. -/
theorem parseFlatDict_repr (m : List (List Char × List Char)) (rest : List Char) :
    parseFlatDict (reprFlatDict m ++ rest) = some (m, rest) := by
  cases m with
  | nil =>
    rw [reprFlatDict, reprEntriesStr, List.cons_append, List.singleton_append, parseFlatDict]
    rw [List.head?_cons, if_pos rfl, List.tail_cons, List.head?_cons, if_pos rfl, List.tail_cons]
  | cons e t =>
    obtain ⟨k, v⟩ := e
    have hhead : (reprEntriesStr ((k, v) :: t) ++ rest).head? = some (strQuote k) := by
      cases t with
      | nil =>
        rw [reprEntriesStr, reprStr_cons]
        simp
      | cons e2 t2 =>
        rw [reprEntriesStr, reprStr_cons]
        simp
    have hq := strQuote_cases k
    rw [reprFlatDict, List.cons_append, parseFlatDict]
    rw [List.head?_cons, if_pos rfl, List.tail_cons]
    rw [hhead]
    rw [if_neg (by rcases hq with h | h <;> rw [h] <;> decide)]
    refine parseEntriesAux_repr ((k, v) :: t) (by simp) rest _ ?_
    rw [List.length_append]
    have := reprEntriesStr_length_ge ((k, v) :: t)
    omega

/-- The key parser consumes `repr` of the expected key and the `': '`. -/
theorem parseKeyed_repr (key X : List Char) :
    parseKeyed key (reprStr key ++ (sepColon ++ X)) = some X := by
  rw [parseKeyed, parseStrLit_reprStr, Option.some_bind, if_pos rfl]
  exact parseExact_append sepColon X

theorem parseExact_lbrace (X : List Char) : parseExact [lbraceCh] (lbraceCh :: X) = some X :=
  parseExact_append [lbraceCh] X

/-- `parseNat` at a `', '` boundary. -/
theorem parseNat_natStr_comma (n : Nat) (X : List Char) :
    parseNat (natStr n ++ (sepComma ++ X)) = some (n, sepComma ++ X) :=
  parseNat_natStr n _ (fun c hc => by
    rw [head?_sepComma_append] at hc
    injection hc with h
    subst h
    decide)

/-- The metadata parser inverts `str(file_metadata)`. -/
theorem parseFileMeta_repr (fm : FileMeta) : parseFileMeta (reprFileMeta fm) = some fm := by
  obtain ⟨f, n, t, m⟩ := fm
  rw [reprFileMeta, parseFileMeta]
  simp only [List.cons_append, List.append_assoc, parseExact_lbrace, Option.some_bind,
    parseKeyed_repr, parseStrLit_reprStr, parseNat_natStr_comma, parseFlatDict_repr,
    parseExact_append]
  simp

/-- Claim C1: for every byte payload `p` (including the empty sequence and
non-UTF8 content), every filename string `f`, and every metadata map `m`
expressible in the schema, unwrapping the result of wrapping `(p, f, m)` into
an encrypted envelope returns exactly `(p, f, m)`:
`decrypt_with_metadata(encrypt_with_metadata(p, f, m))` yields payload `p`,
filename `f` and metadata map `m` (together with the recorded size
`len(p)` and the uniqueness token). -/
theorem C1_envelope_roundtrip (encB decB hmacF : List Nat → List Nat)
    (hc : CipherOK encB decB) (hh : HmacOK hmacF) (ts : Nat) (iv : List Nat)
    (hiv : iv.length = 16) (hivb : IsBytes iv) (p : List Nat) (hp : IsBytes p)
    (f : List Char) (m : List (List Char × List Char)) (tok : List Char) (c : List Nat)
    (henc : encrypt_with_metadata encB hmacF ts iv p f m tok = some c) :
    decrypt_with_metadata decB hmacF c = some (p, ⟨f, p.length, tok, m⟩) := by
  rw [encrypt_with_metadata] at henc
  rcases Option.map_eq_some'.mp henc with ⟨len4, h4, rfl⟩
  rw [toBytes4] at h4
  obtain ⟨E, hE⟩ : ∃ E, utf8Enc (reprFileMeta ⟨f, p.length, tok, m⟩) = E := ⟨_, rfl⟩
  rw [hE] at h4 ⊢
  by_cases hlt : E.length < 4294967296
  · rw [if_pos hlt] at h4
    have hlen4 := Option.some.inj h4
    subst hlen4
    have hl4 : ([E.length / 16777216 % 256, E.length / 65536 % 256, E.length / 256 % 256,
        E.length % 256] : List Nat).length = 4 := rfl
    have hb4 : IsBytes [E.length / 16777216 % 256, E.length / 65536 % 256,
        E.length / 256 % 256, E.length % 256] := by
      intro b hb
      simp only [List.mem_cons, List.not_mem_nil, or_false] at hb
      rcases hb with h | h | h | h <;> subst h <;> omega
    have hfrom : fromBytesBE [E.length / 16777216 % 256, E.length / 65536 % 256,
        E.length / 256 % 256, E.length % 256] = E.length := by
      rw [fromBytesBE, List.foldl_cons, List.foldl_cons, List.foldl_cons, List.foldl_cons,
        List.foldl_nil]
      omega
    have hcomb : IsBytes ([E.length / 16777216 % 256, E.length / 65536 % 256,
        E.length / 256 % 256, E.length % 256] ++ E ++ p) := by
      intro b hb
      rcases List.mem_append.mp hb with hb | hb
      · rcases List.mem_append.mp hb with hb | hb
        · exact hb4 b hb
        · rw [← hE] at hb
          exact isBytes_utf8Enc _ b hb
      · exact hp b hb
    rw [decrypt_with_metadata]
    rw [fernetDecrypt_fernetEncrypt hc hh _ _ _ hiv hivb hcomb]
    rw [Option.some_bind]
    rw [List.append_assoc]
    rw [List.take_left' hl4, hfrom, List.drop_left' hl4, List.take_left]
    rw [← List.drop_drop, List.drop_left' hl4, List.drop_left]
    rw [← hE, utf8Dec_utf8Enc, Option.some_bind]
    rw [parseFileMeta_repr, Option.map_some']
  · rw [if_neg hlt] at h4
    exact absurd h4 (by simp)


set_option maxRecDepth 200000 in
/-- Witness for C1: a concrete payload (containing a non-UTF8 byte), filename,
metadata map and token round-trip through the envelope. -/
theorem C1_witness :
    decrypt_with_metadata idB hmac0
      ((encrypt_with_metadata idB hmac0 0 iv0 [0, 255] ['a'] [(['k'], ['v'])] ['f']).getD []) =
      some ([0, 255], ⟨['a'], 2, ['f'], [(['k'], ['v'])]⟩) :=
  C1_envelope_roundtrip idB idB hmac0 cipherOK_idB hmacOK_hmac0 0 iv0 (by decide) (by decide)
    [0, 255] (by decide) ['a'] [(['k'], ['v'])] ['f']
    ((encrypt_with_metadata idB hmac0 0 iv0 [0, 255] ['a'] [(['k'], ['v'])] ['f']).getD [])
    (by decide)

end FtpExt
